import Mathlib

/-!
# Random subsampling of a distributed particle set (`subsample.c`)

A shallow embedding of `subsample_init` and `write_random_sabsample`.

Conventions of the embedding.

* C `int` values are integers; every place where the C code converts to `int`
  or `unsigned int` is an explicit reduction (`toInt32`, `toUInt32`).  Signed
  overflow, which C leaves undefined, is modelled as two's complement wrapping.
* `double` values are rationals (every finite double is one), with two
  infinities and NaN where an operation can produce them.  The capacity test of
  line 43 is evaluated in binary64: every operation rounds its exact result to
  the nearest double, ties to even (`localCheckFails64`).  The same condition in
  exact arithmetic (`localCheckFails`) is kept next to it for comparison.
* A pointer to an array is the total map from index to element; buffer sizes
  are tracked separately, so that leaving a buffer is a statement about indices.
* `ParticleMinimum` is an arbitrary type `P` and `sizeof(ParticleMinimum)` a
  parameter `sizeofPM`; the floating point header fields of a snapshot are an
  arbitrary type `M`.
* The MPI collectives, the GSL generator and `msg_abort` are external; they are
  modelled by what their interfaces promise.
-/

namespace Subsample

/-! ## Machine integers -/

/-- Conversion to a 32-bit two's complement `int`. -/
def toInt32 (x : Int) : Int := (x + 2 ^ 31) % 2 ^ 32 - 2 ^ 31

/-- Conversion to a 32-bit `unsigned int`. -/
def toUInt32 (x : Int) : Int := x % 2 ^ 32

/-! ## Module state and `subsample_init` -/

/-- The two file-scope variables of `subsample.c`.  `Random_generator` is `none`
for the null pointer and `some s` for a `ranlxd1` generator set with seed `s`. -/
structure Globals where
  Random_generator : Option Int
  SubsampleFactor : ℚ

/-- The static initialisers: `Random_generator= 0`, `SubsampleFactor= 0.0`. -/
def Globals.initial : Globals := ⟨none, 0⟩

/-- The argument `2*seed + 100*this_node` of `gsl_rng_set`: `seed` is an
`unsigned int`, `this_node` an `int`; the product `100*this_node` is an `int`,
the sum is computed in `unsigned int`. -/
def rng_seed (seed : Nat) (this_node : Int) : Int :=
  toUInt32 (toUInt32 (2 * toUInt32 seed) + toInt32 (100 * this_node))

/-- Embedding of `subsample_init`, as a transformer of the module state
(`this_node` is the value of `comm_this_node()`; the log line has no effect on
the state). -/
def subsample_init (_g : Globals) (subsample_factor : ℚ) (seed : Nat) (this_node : Int) :
    Globals :=
  { Random_generator := some (rng_seed seed this_node)
    SubsampleFactor := subsample_factor }

/-! ## Data -/

/-- Modelled from the spec: the `Snapshot` record of `particle.h`, which is not
among the sources.  `p` is the pointer to the particle array; the counts and
`nc`, `seed` are integers; `a`, `boxsize`, `omega_m`, `h` are header scalars. -/
structure Snapshot (P M : Type) where
  p : Nat → P
  np_local : Int
  np_allocated : Int
  np_total : Int
  np_average : Int
  a : M
  nc : Int
  boxsize : M
  omega_m : M
  h : M
  seed : Int

/-- The records `m[start], …, m[start+len-1]`. -/
def readArr {P : Type} (m : Nat → P) (start len : Nat) : List P :=
  (List.range len).map fun j => m (start + j)

/-- The memory `m` after `data` has been stored from index `start` on. -/
def writeArr {P : Type} (m : Nat → P) (start : Nat) (data : List P) : Nat → P :=
  fun a => if start ≤ a then (data[a - start]?).getD (m a) else m a

/-! ## Local capacity test (lines 43-47)

Line 43 is `if(SubsampleFactor*np + 5*sqrt(SubsampleFactor*np) > nbuf)`: the
operands `np`, `5` and `nbuf` are converted to `double`, and the product, the
square root, the second product and the sum are each one binary64 operation. -/

/-- A `double`: a finite value (the sign of zero is not kept), an infinity, or
NaN. -/
inductive F64 where
  | fin (q : ℚ)
  | pinf
  | ninf
  | nan
  deriving DecidableEq

/-- The integer nearest to `q`, the even one of the two when `q` lies half way. -/
def roundHalfEven (q : ℚ) : Int :=
  if q - ⌊q⌋ < 1 / 2 then ⌊q⌋
  else if 1 / 2 < q - ⌊q⌋ then ⌊q⌋ + 1
  else if ⌊q⌋ % 2 = 0 then ⌊q⌋ else ⌊q⌋ + 1

/-- The spacing of the doubles around `x`: `2^(e-52)` for `2^e ≤ |x| < 2^(e+1)`,
and `2^-1074` in the subnormal range, below `2^-1022`. -/
def ulp64 (x : ℚ) : ℚ := 2 ^ (max (Int.log 2 |x|) (-1022) - 52)

/-- The multiple of the spacing nearest to `x`, ties to even. -/
def roundRaw (x : ℚ) : ℚ := (roundHalfEven (x / ulp64 x) : ℚ) * ulp64 x

/-- The exact value `x` rounded to a `double`: a result of magnitude `2^1024`
overflows to the infinity of its sign. -/
def round64 (x : ℚ) : F64 :=
  if 2 ^ 1024 ≤ roundRaw x then F64.pinf
  else if roundRaw x ≤ -2 ^ 1024 then F64.ninf
  else F64.fin (roundRaw x)

/-- The product of an infinity with a finite `a`: the infinity of the sign of
`a`, NaN for `a = 0`. -/
def infOfSign (a : ℚ) : F64 :=
  if 0 < a then F64.pinf else if a < 0 then F64.ninf else F64.nan

/-- The product of two doubles. -/
def mul64 : F64 → F64 → F64
  | F64.fin a, F64.fin b => round64 (a * b)
  | F64.fin a, F64.pinf => infOfSign a
  | F64.fin a, F64.ninf => infOfSign (-a)
  | F64.pinf, F64.fin b => infOfSign b
  | F64.ninf, F64.fin b => infOfSign (-b)
  | F64.pinf, F64.pinf => F64.pinf
  | F64.ninf, F64.ninf => F64.pinf
  | F64.pinf, F64.ninf => F64.ninf
  | F64.ninf, F64.pinf => F64.ninf
  | F64.nan, _ => F64.nan
  | _, F64.nan => F64.nan

/-- The sum of two doubles. -/
def add64 : F64 → F64 → F64
  | F64.fin a, F64.fin b => round64 (a + b)
  | F64.fin _, F64.pinf => F64.pinf
  | F64.fin _, F64.ninf => F64.ninf
  | F64.pinf, F64.fin _ => F64.pinf
  | F64.ninf, F64.fin _ => F64.ninf
  | F64.pinf, F64.pinf => F64.pinf
  | F64.ninf, F64.ninf => F64.ninf
  | F64.pinf, F64.ninf => F64.nan
  | F64.ninf, F64.pinf => F64.nan
  | F64.nan, _ => F64.nan
  | _, F64.nan => F64.nan

/-- The square root of a double `a > 0` rounded to a `double`, ties to even.  With
`u` the spacing of the doubles around the root, the root divided by `u` lies in
`[2^52, 2^53)`; its integer part is `Nat.sqrt` of the integer part of
`t = a / u^2`, and comparing `t` with the square of the midpoint settles the
direction.  A root is neither subnormal nor infinite. -/
def sqrtRound (a : ℚ) : ℚ :=
  let u : ℚ := 2 ^ (Int.log 2 a / 2 - 52)
  let t : ℚ := a / (u * u)
  let n : ℚ := (Nat.sqrt ⌊t⌋₊ : ℚ)
  if t < (n + 1 / 2) ^ 2 then n * u
  else if (n + 1 / 2) ^ 2 < t then (n + 1) * u
  else if Nat.sqrt ⌊t⌋₊ % 2 = 0 then n * u else (n + 1) * u

/-- The function `sqrt` of `math.h`: NaN for a negative argument. -/
def sqrt64 : F64 → F64
  | F64.fin a => if a < 0 then F64.nan else if a = 0 then F64.fin 0 else F64.fin (sqrtRound a)
  | F64.pinf => F64.pinf
  | F64.ninf => F64.nan
  | F64.nan => F64.nan

/-- The comparison `x > y` of two doubles, false when either is NaN. -/
def gt64 : F64 → F64 → Bool
  | F64.fin a, F64.fin b => decide (b < a)
  | F64.pinf, F64.fin _ => true
  | F64.pinf, F64.ninf => true
  | F64.fin _, F64.ninf => true
  | _, _ => false

/-- The conversion of an `int` to `double`, which is exact. -/
def ofInt (n : Int) : F64 := F64.fin n

/-- The condition of line 43,
`SubsampleFactor*np + 5*sqrt(SubsampleFactor*np) > nbuf`, as the program
evaluates it. -/
def localCheckFails64 (SubsampleFactor : ℚ) (np nbuf : Int) : Prop :=
  gt64 (add64 (mul64 (F64.fin SubsampleFactor) (ofInt np))
      (mul64 (ofInt 5) (sqrt64 (mul64 (F64.fin SubsampleFactor) (ofInt np)))))
    (ofInt nbuf) = true

instance localCheckFails64_decidable (f : ℚ) (np nbuf : Int) :
    Decidable (localCheckFails64 f np nbuf) := by
  unfold localCheckFails64
  infer_instance

/-! ### The same condition in exact arithmetic -/

/-- The condition of line 43, `SubsampleFactor*np + 5*sqrt(SubsampleFactor*np) > nbuf`,
with the operations of the reals in place of those of binary64.  For a negative
product `sqrt` returns NaN and the comparison is false, hence the first
conjunct. -/
def localCheckFails (SubsampleFactor : ℚ) (np nbuf : Int) : Prop :=
  0 ≤ (SubsampleFactor : ℝ) * (np : ℝ) ∧
    (SubsampleFactor : ℝ) * (np : ℝ) + 5 * Real.sqrt ((SubsampleFactor : ℝ) * (np : ℝ))
      > (nbuf : ℝ)

/-- A test in rational arithmetic that decides `localCheckFails`. -/
def localCheckTest (SubsampleFactor : ℚ) (np nbuf : Int) : Prop :=
  0 ≤ SubsampleFactor * np ∧
    ((nbuf : ℚ) < SubsampleFactor * np ∨
      ((nbuf : ℚ) - SubsampleFactor * np) ^ 2 < 25 * (SubsampleFactor * np))

theorem localCheckFails_iff_test (f : ℚ) (np nbuf : Int) :
    localCheckFails f np nbuf ↔ localCheckTest f np nbuf := by
  unfold localCheckFails localCheckTest
  have hx : ((f : ℝ) * (np : ℝ)) = (((f * np : ℚ)) : ℝ) := by push_cast; ring
  rw [hx]
  generalize f * (np : ℚ) = x
  constructor
  · rintro ⟨h0, h⟩
    have h0q : (0 : ℚ) ≤ x := by exact_mod_cast h0
    refine ⟨h0q, ?_⟩
    by_cases hb : (nbuf : ℚ) < x
    · exact Or.inl hb
    · right
      have hbr : (x : ℝ) ≤ (nbuf : ℝ) := by
        have : x ≤ (nbuf : ℚ) := not_lt.mp hb
        exact_mod_cast this
      have h1 : ((nbuf : ℝ) - x) / 5 < Real.sqrt (x : ℝ) := by linarith
      have h2 := (Real.lt_sqrt (by linarith : (0 : ℝ) ≤ ((nbuf : ℝ) - x) / 5)).1 h1
      have h3 : ((nbuf : ℝ) - x) ^ 2 < 25 * (x : ℝ) := by nlinarith
      exact_mod_cast h3
  · rintro ⟨h0q, h⟩
    have h0 : (0 : ℝ) ≤ (x : ℝ) := by exact_mod_cast h0q
    refine ⟨h0, ?_⟩
    rcases h with hb | hs
    · have hbr : (nbuf : ℝ) < (x : ℝ) := by exact_mod_cast hb
      have := Real.sqrt_nonneg (x : ℝ)
      linarith
    · by_cases hb : (nbuf : ℝ) < (x : ℝ)
      · have := Real.sqrt_nonneg (x : ℝ)
        linarith
      · have hbr : (x : ℝ) ≤ (nbuf : ℝ) := not_lt.mp hb
        have h3 : ((nbuf : ℝ) - x) ^ 2 < 25 * (x : ℝ) := by exact_mod_cast hs
        have h2 : (((nbuf : ℝ) - x) / 5) ^ 2 < (x : ℝ) := by nlinarith
        have h1 := (Real.lt_sqrt (by linarith : (0 : ℝ) ≤ ((nbuf : ℝ) - x) / 5)).2 h2
        linarith

instance localCheckTest_decidable (f : ℚ) (np nbuf : Int) : Decidable (localCheckTest f np nbuf) := by
  unfold localCheckTest
  infer_instance

instance localCheckFails_decidable (f : ℚ) (np nbuf : Int) :
    Decidable (localCheckFails f np nbuf) :=
  decidable_of_iff _ (localCheckFails_iff_test f np nbuf).symm

/-! ## The filter loop (lines 49-54) -/

/-- One call of `gsl_rng_uniform`: the generator is the stream of the values it
will return; a call yields the first and leaves the rest. -/
def gsl_rng_uniform {D : Type} (g : Nat → D) : D × (Nat → D) :=
  (g 0, fun k => g (k + 1))

/-- The variables the filter loop changes: the generator, the scratch buffer
`out` and the counter `nsub`. -/
structure FilterState (D P : Type) where
  Random_generator : Nat → D
  out : Nat → P
  nsub : Nat

/-- The loop body for index `i`:
`if(gsl_rng_uniform(Random_generator) < SubsampleFactor) out[nsub++]= p[i];`. -/
def filterStep {D P : Type} [LT D] [DecidableRel (fun a b : D => a < b)]
    (SubsampleFactor : D) (p : Nat → P) (s : FilterState D P) (i : Nat) : FilterState D P :=
  let r := gsl_rng_uniform s.Random_generator
  if r.1 < SubsampleFactor then
    { Random_generator := r.2, out := Function.update s.out s.nsub (p i), nsub := s.nsub + 1 }
  else
    { s with Random_generator := r.2 }

/-- The loop `for(int i=0; i<np; i++)` of lines 51-54, run from state `s`. -/
def filterLoop {D P : Type} [LT D] [DecidableRel (fun a b : D => a < b)]
    (SubsampleFactor : D) (p : Nat → P) (np : Int) (s : FilterState D P) : FilterState D P :=
  (List.range np.toNat).foldl (filterStep SubsampleFactor p) s

/-! ## Counts and offsets on the coordinator (lines 62-77) -/

/-- The integer arrays `nsub_recv`, `disp` and the running total `ns`. -/
structure CountState where
  nsub_recv : Nat → Int
  disp : Nat → Int
  ns : Int

/-- The body of the loop of lines 71-75 for index `i`.  The products with
`sizeof(ParticleMinimum)` are formed in `size_t` and stored in an `int`. -/
def countStep (sizeofPM : Nat) (s : CountState) (i : Nat) : CountState :=
  { disp := Function.update s.disp i (toInt32 (s.ns * sizeofPM))
    ns := toInt32 (s.ns + s.nsub_recv i)
    nsub_recv := Function.update s.nsub_recv i (toInt32 (s.nsub_recv i * sizeofPM)) }

/-- The loop `for(int i=0; i<nnode; i++)` of lines 71-75. -/
def countLoop (sizeofPM nnode : Nat) (s : CountState) : CountState :=
  (List.range nnode).foldl (countStep sizeofPM) s

/-- The state after `MPI_Gather` has stored the count of rank `i` in
`nsub_recv[i]` and the loop of lines 71-75 has run, with `ns= 0` before it (the
cells of `disp` are written before they are read; they start as 0 here). -/
def coordinatorCounts (sizeofPM nnode : Nat) (counts : Nat → Int) : CountState :=
  countLoop sizeofPM nnode { nsub_recv := counts, disp := fun _ => 0, ns := 0 }

/-- The condition of line 76, `nbuf < nsub+ns`. -/
def globalCheckFails (nbuf : Int) (nsub : Nat) (ns : Int) : Prop :=
  nbuf < toInt32 ((nsub : Int) + ns)

instance globalCheckFails_decidable (nbuf : Int) (nsub : Nat) (ns : Int) :
    Decidable (globalCheckFails nbuf nsub ns) := by
  unfold globalCheckFails
  infer_instance

/-! ## The collectives -/

/-- What the communication layer supplies on one rank: its rank, the number of
ranks, and for every other rank `i` the records `out[0..nsub)` that rank `i`
contributes to the two collectives. -/
structure Comm (P : Type) where
  this_node : Int
  nnode : Nat
  peer : Nat → List P

/-- Receiving the block of rank `i` in `MPI_Gatherv` at the root: the
`recvcounts[i]` bytes sent by rank `i` are stored `displs[i]` bytes after
`recvbuf`, which is record `buf1` of the scratch buffer.  The block must be the
whole message of rank `i` and start at a non-negative offset on a record
boundary; otherwise the call fails. -/
def gathervStep {P : Type} (sizeofPM buf1 : Nat) (sample : Nat → List P)
    (recvcounts displs : Nat → Int) (acc : Option (Nat → P)) (i : Nat) : Option (Nat → P) :=
  acc.bind fun m =>
    if recvcounts i = (sizeofPM : Int) * ((sample i).length : Int) ∧ 0 ≤ displs i ∧
        (sizeofPM : Int) ∣ displs i then
      some (writeArr m (buf1 + (displs i / (sizeofPM : Int)).toNat) (sample i))
    else none

/-- The root side of `MPI_Gatherv`: the blocks of ranks `0, …, nnode-1` are
received in turn; `none` stands for a return value other than `MPI_SUCCESS`. -/
def MPI_Gatherv {P : Type} (sizeofPM buf1 nnode : Nat) (sample : Nat → List P)
    (recvcounts displs : Nat → Int) (m : Nat → P) : Option (Nat → P) :=
  (List.range nnode).foldl (gathervStep sizeofPM buf1 sample recvcounts displs) (some m)

/-! ## `write_random_sabsample` -/

/-- The ways `write_random_sabsample` ends without returning. -/
inductive Abort where
  | msg_abort (code : Nat)
  | assert_failed
  deriving DecidableEq, Repr

/-- What a call leaves behind: the generator, the scratch buffer, and the file
name and snapshot passed to `write_particles_binary`, if it was called. -/
structure Outcome (P M : Type) where
  Random_generator : Nat → ℚ
  mem : Nat → P
  written : Option (String × Snapshot P M)

/-- The snapshot built in lines 93-104 from the input snapshot, the pointer
`buf1` and the total `ns`. -/
def assemble {P M : Type} (snapshot : Snapshot P M) (buf1 : Nat → P) (ns : Int) :
    Snapshot P M :=
  { p := buf1
    np_local := ns
    np_allocated := ns
    np_total := ns
    np_average := ns
    a := snapshot.a
    nc := 0
    boxsize := snapshot.boxsize
    omega_m := snapshot.omega_m
    h := snapshot.h
    seed := snapshot.seed }

/-- The sample every rank holds when the collectives start, seen from rank
`comm.this_node`: its own is `out[0..nsub)`, the others are `comm.peer`. -/
def samples {P : Type} (comm : Comm P) (out : Nat → P) (nsub : Nat) (i : Nat) : List P :=
  if (i : Int) = comm.this_node then readArr out 0 nsub else comm.peer i

/-- The capacity of the scratch buffer in records, line 41:
`const int nbuf = mem_size/sizeof(ParticleMinimum);`. -/
def nbufOf (sizeofPM mem_size : Nat) : Int :=
  toInt32 ((mem_size / sizeofPM : Nat) : Int)

/-- The state after the filter loop of lines 49-54 in a call with the given
module state, snapshot and scratch buffer. -/
def localFilter {P M : Type} (SubsampleFactor : ℚ) (Random_generator : Nat → ℚ)
    (snapshot : Snapshot P M) (mem : Nat → P) : FilterState ℚ P :=
  filterLoop SubsampleFactor snapshot.p snapshot.np_local
    { Random_generator := Random_generator, out := mem, nsub := 0 }

/-- The arrays and the total after `MPI_Gather` and the loop of lines 71-75 on
the coordinator whose own sample is `out[0..nsub)`. -/
def gatheredCounts {P : Type} (sizeofPM : Nat) (comm : Comm P) (out : Nat → P) (nsub : Nat) :
    CountState :=
  coordinatorCounts sizeofPM comm.nnode fun i => ((samples comm out nsub i).length : Int)

/-- Embedding of `write_random_sabsample`.  `SubsampleFactor` and
`Random_generator` are the module state, `mem` the scratch buffer of `mem_size`
bytes. -/
def write_random_sabsample {P M : Type} (sizeofPM : Nat) (SubsampleFactor : ℚ)
    (Random_generator : Nat → ℚ) (comm : Comm P) (filename : String)
    (snapshot : Snapshot P M) (mem : Nat → P) (mem_size : Nat) :
    Except Abort (Outcome P M) :=
  let np := snapshot.np_local
  let nbuf := nbufOf sizeofPM mem_size
  if localCheckFails64 SubsampleFactor np nbuf then
    Except.error (Abort.msg_abort 9300)
  else
    let s := localFilter SubsampleFactor Random_generator snapshot mem
    let out := s.out
    let nsub := s.nsub
    if comm.this_node = 0 then
      let c := gatheredCounts sizeofPM comm out nsub
      if globalCheckFails nbuf nsub c.ns then
        Except.error (Abort.msg_abort 9100)
      else
        let buf1 := nsub
        match MPI_Gatherv sizeofPM buf1 comm.nnode (samples comm out nsub)
            c.nsub_recv c.disp out with
        | none => Except.error Abort.assert_failed
        | some m =>
          let subsample := assemble snapshot (fun j => m (buf1 + j)) c.ns
          Except.ok { Random_generator := s.Random_generator, mem := m
                      written := some (filename, subsample) }
    else
      Except.ok { Random_generator := s.Random_generator, mem := out, written := none }

/-! ## A small job, used to run the definitions

Two ranks, records of 32 bytes, a scratch buffer of 100 records, factor 1/2.  The
coordinator holds the records 10, 11, 12, 13 and draws 0, 3/4, 0, 3/4; rank 1
contributes the sample `[7, 8]`. -/

/-- The coordinator's snapshot in the small job. -/
def demoSnapshot : Snapshot Nat ℚ :=
  { p := fun i => 10 + i, np_local := 4, np_allocated := 4, np_total := 8, np_average := 4
    a := 1, nc := 2, boxsize := 100, omega_m := 3 / 10, h := 7 / 10, seed := 42 }

/-- The values the coordinator's generator returns in the small job. -/
def demoDraws : Nat → ℚ := fun i => if i % 2 = 0 then 0 else 3 / 4

/-- The communication layer as the coordinator of the small job sees it. -/
def demoComm : Comm Nat := ⟨0, 2, fun i => if i = 1 then [7, 8] else []⟩

/-- A snapshot of 16 local records. -/
def snapshot16 : Snapshot Nat ℚ := { demoSnapshot with np_local := 16 }

/-- A snapshot without local records. -/
def emptySnapshot : Snapshot Nat ℚ := { demoSnapshot with np_local := 0 }

/-- A sample of `2^26` records, which is 2 GiB of 32-byte records. -/
def bigSample : List Nat := List.replicate (2 ^ 26) 7

/-- Three ranks: rank 1 contributes `bigSample`, rank 2 one record. -/
def bigComm : Comm Nat := ⟨0, 3, fun i => if i = 1 then bigSample else [8]⟩

/-- A snapshot of 1000 local records. -/
def snapshot1000 : Snapshot Nat ℚ := { demoSnapshot with np_local := 1000 }

/-- The double nearest to 1/10, `0x1.999999999999ap-4`. -/
def double_0_1 : ℚ := 3602879701896397 / 2 ^ 55

/-- The double `0x1.31c4253827f15p-2`, about 0.2986. -/
def double_0_2986 : ℚ := 5379095751982869 / 2 ^ 54

/-! ## Auxiliary facts -/

theorem toInt32_of_range (x : Int) (h0 : -(2 ^ 31) ≤ x) (h1 : x < 2 ^ 31) : toInt32 x = x := by
  unfold toInt32
  omega

theorem readArr_length {P : Type} (m : Nat → P) (start len : Nat) :
    (readArr m start len).length = len := by
  simp [readArr]

theorem readArr_succ {P : Type} (m : Nat → P) (start len : Nat) :
    readArr m start (len + 1) = readArr m start len ++ [m (start + len)] := by
  simp [readArr, List.range_succ]

theorem readArr_congr {P : Type} (m m' : Nat → P) (start len : Nat)
    (h : ∀ j, j < len → m (start + j) = m' (start + j)) :
    readArr m start len = readArr m' start len := by
  unfold readArr
  apply List.map_congr_left
  intro j hj
  exact h j (List.mem_range.mp hj)

theorem filterLoop_succ {D P : Type} [LT D] [DecidableRel (fun a b : D => a < b)]
    (f : D) (p : Nat → P) (n : Nat) (s : FilterState D P) :
    filterLoop f p ((n + 1 : Nat) : Int) s = filterStep f p (filterLoop f p (n : Int) s) n := by
  simp [filterLoop, List.range_succ]

/-- The invariant of the filter loop after `n` iterations from an empty sample. -/
theorem filterLoop_invariant {D P : Type} [LT D] [DecidableRel (fun a b : D => a < b)]
    (f : D) (p : Nat → P) (u : Nat → D) (mem : Nat → P) (n : Nat) :
    (filterLoop f p (n : Int) ⟨u, mem, 0⟩).Random_generator = (fun k => u (k + n)) ∧
    (filterLoop f p (n : Int) ⟨u, mem, 0⟩).nsub
      = ((List.range n).filter fun i => decide (u i < f)).length ∧
    readArr (filterLoop f p (n : Int) ⟨u, mem, 0⟩).out 0
        (filterLoop f p (n : Int) ⟨u, mem, 0⟩).nsub
      = ((List.range n).filter fun i => decide (u i < f)).map p ∧
    ∀ a, (filterLoop f p (n : Int) ⟨u, mem, 0⟩).nsub ≤ a →
      (filterLoop f p (n : Int) ⟨u, mem, 0⟩).out a = mem a := by
  induction n with
  | zero => simp [filterLoop, readArr]
  | succ n ih =>
    obtain ⟨hg, hn, hr, hm⟩ := ih
    rw [filterLoop_succ]
    generalize filterLoop f p (n : Int) ⟨u, mem, 0⟩ = s at hg hn hr hm
    have hu : (gsl_rng_uniform s.Random_generator).1 = u n := by
      simp [gsl_rng_uniform, hg]
    have hg' : (gsl_rng_uniform s.Random_generator).2 = fun k => u (k + (n + 1)) := by
      funext k
      simp [gsl_rng_uniform, hg, Nat.add_assoc, Nat.add_comm 1 n]
    by_cases hlt : u n < f
    · have hstep : filterStep f p s n
          = ⟨fun k => u (k + (n + 1)), Function.update s.out s.nsub (p n), s.nsub + 1⟩ := by
        simp [filterStep, hu, hg', hlt]
      rw [hstep]
      refine ⟨rfl, ?_, ?_, ?_⟩
      · simp [List.range_succ, List.filter_append, hlt, hn]
      · show readArr (Function.update s.out s.nsub (p n)) 0 (s.nsub + 1) = _
        rw [readArr_succ]
        have hpre : readArr (Function.update s.out s.nsub (p n)) 0 s.nsub
            = readArr s.out 0 s.nsub := by
          apply readArr_congr
          intro j hj
          have : 0 + j ≠ s.nsub := by omega
          simp [Function.update_noteq this]
        rw [hpre, hr, Nat.zero_add, Function.update_same]
        simp [List.range_succ, List.filter_append, hlt]
      · intro a ha
        have ha' : s.nsub + 1 ≤ a := ha
        have hne : a ≠ s.nsub := by omega
        rw [show (⟨fun k => u (k + (n + 1)), Function.update s.out s.nsub (p n),
          s.nsub + 1⟩ : FilterState D P).out = Function.update s.out s.nsub (p n) from rfl]
        rw [Function.update_noteq hne]
        exact hm a (by omega)
    · have hstep : filterStep f p s n = ⟨fun k => u (k + (n + 1)), s.out, s.nsub⟩ := by
        simp [filterStep, hu, hg', hlt]
      rw [hstep]
      refine ⟨rfl, ?_, ?_, ?_⟩
      · simp [List.range_succ, List.filter_append, hlt, hn]
      · show readArr s.out 0 s.nsub = _
        rw [hr]
        simp [List.range_succ, List.filter_append, hlt]
      · exact hm

theorem filterLoop_toNat {D P : Type} [LT D] [DecidableRel (fun a b : D => a < b)]
    (f : D) (p : Nat → P) (np : Int) (s : FilterState D P) :
    filterLoop f p np s = filterLoop f p ((np.toNat : Nat) : Int) s := by
  unfold filterLoop
  rw [Int.toNat_ofNat]

/-! ### The count loop -/

theorem countLoop_succ (r n : Nat) (s : CountState) :
    countLoop r (n + 1) s = countStep r (countLoop r n s) n := by
  simp [countLoop, List.range_succ]

/-- What `n` iterations of the loop of lines 71-75 have done, in terms of the
totals reached on the way. -/
theorem countLoop_cells (r : Nat) (c : Nat → Int) (n : Nat) :
    (∀ i, i < n → (coordinatorCounts r n c).disp i = toInt32 ((coordinatorCounts r i c).ns * r)) ∧
    (∀ i, i < n → (coordinatorCounts r n c).nsub_recv i = toInt32 (c i * r)) ∧
    (∀ i, n ≤ i → (coordinatorCounts r n c).nsub_recv i = c i) ∧
    (coordinatorCounts r (n + 1) c).ns = toInt32 ((coordinatorCounts r n c).ns + c n) := by
  induction n with
  | zero =>
    refine ⟨by intro i hi; omega, by intro i hi; omega, ?_, ?_⟩
    · intro i _
      simp [coordinatorCounts, countLoop]
    · simp [coordinatorCounts, countLoop, countStep, List.range_succ]
  | succ n ih =>
    obtain ⟨hd, hr, hc, hn⟩ := ih
    have hstep : coordinatorCounts r (n + 1) c = countStep r (coordinatorCounts r n c) n := by
      unfold coordinatorCounts
      exact countLoop_succ r n _
    have hstep2 : coordinatorCounts r (n + 1 + 1) c
        = countStep r (coordinatorCounts r (n + 1) c) (n + 1) := by
      unfold coordinatorCounts
      exact countLoop_succ r (n + 1) _
    have hrecv : ∀ i, n + 1 ≤ i → (coordinatorCounts r (n + 1) c).nsub_recv i = c i := by
      intro i hi
      rw [hstep]
      have hne : i ≠ n := by omega
      simp only [countStep, Function.update_noteq hne]
      exact hc i (by omega)
    refine ⟨?_, ?_, hrecv, ?_⟩
    · intro i hi
      rw [hstep]
      by_cases hin : i = n
      · subst hin
        simp [countStep]
      · simp only [countStep, Function.update_noteq hin]
        exact hd i (by omega)
    · intro i hi
      rw [hstep]
      by_cases hin : i = n
      · subst hin
        simp only [countStep, Function.update_same]
        rw [hc i (le_refl i)]
      · simp only [countStep, Function.update_noteq hin]
        exact hr i (by omega)
    · rw [hstep2]
      simp only [countStep]
      rw [hrecv (n + 1) (le_refl _)]

theorem sum_range_nonneg (c : Nat → Int) (k : Nat) (hc : ∀ i, i < k → 0 ≤ c i) (n : Nat)
    (hn : n ≤ k) : 0 ≤ ∑ j ∈ Finset.range n, c j :=
  Finset.sum_nonneg fun i hi => hc i (by have := Finset.mem_range.mp hi; omega)

theorem sum_range_mono (c : Nat → Int) (k : Nat) (hc : ∀ i, i < k → 0 ≤ c i) (n : Nat)
    (hn : n ≤ k) : ∑ j ∈ Finset.range n, c j ≤ ∑ j ∈ Finset.range k, c j := by
  induction k with
  | zero =>
    have : n = 0 := by omega
    subst this
    exact le_refl _
  | succ k ih =>
    rcases Nat.lt_or_ge n (k + 1) with h | h
    · have h1 := ih (fun i hi => hc i (by omega)) (by omega)
      have h2 := hc k (by omega)
      rw [Finset.sum_range_succ]
      omega
    · have : n = k + 1 := by omega
      subst this
      exact le_refl _

/-- While the counts are non-negative and their sum fits an `int`, the running
total `ns` is the sum of the counts read so far. -/
theorem countLoop_ns (r : Nat) (c : Nat → Int) (k : Nat) (hc : ∀ i, i < k → 0 ≤ c i)
    (hfit : ∑ j ∈ Finset.range k, c j < 2 ^ 31) (n : Nat) (hn : n ≤ k) :
    (coordinatorCounts r n c).ns = ∑ j ∈ Finset.range n, c j := by
  induction n with
  | zero => simp [coordinatorCounts, countLoop]
  | succ n ih =>
    rw [(countLoop_cells r c n).2.2.2, ih (by omega), Finset.sum_range_succ]
    have h0 := sum_range_nonneg c k hc (n + 1) hn
    have h1 := sum_range_mono c k hc (n + 1) hn
    rw [Finset.sum_range_succ] at h0 h1
    exact toInt32_of_range _ (by omega) (by omega)

/-! ### Buffers and the gather -/

theorem readArr_add {P : Type} (m : Nat → P) (start a b : Nat) :
    readArr m start (a + b) = readArr m start a ++ readArr m (start + a) b := by
  induction b with
  | zero => simp [readArr]
  | succ b ih =>
    rw [← Nat.add_assoc, readArr_succ, ih, readArr_succ, List.append_assoc, Nat.add_assoc]

theorem writeArr_outside {P : Type} (m : Nat → P) (start : Nat) (data : List P) (a : Nat)
    (h : a < start ∨ start + data.length ≤ a) : writeArr m start data a = m a := by
  unfold writeArr
  split
  · rcases h with h | h
    · omega
    · have : data.length ≤ a - start := by omega
      simp [List.getElem?_eq_none this]
  · rfl

theorem writeArr_inside {P : Type} (m : Nat → P) (start : Nat) (data : List P) (j : Nat)
    (h : j < data.length) : writeArr m start data (start + j) = data[j] := by
  unfold writeArr
  simp [List.getElem?_eq_getElem h]

theorem readArr_writeArr {P : Type} (m : Nat → P) (start : Nat) (data : List P) :
    readArr (writeArr m start data) start data.length = data := by
  apply List.ext_getElem
  · exact readArr_length _ _ _
  · intro j h1 h2
    simp only [readArr, List.getElem_map, List.getElem_range]
    exact writeArr_inside m start data j h2

theorem gatherv_succ {P : Type} (r buf1 n : Nat) (sample : Nat → List P)
    (recvcounts displs : Nat → Int) (m : Nat → P) :
    MPI_Gatherv r buf1 (n + 1) sample recvcounts displs m
      = gathervStep r buf1 sample recvcounts displs
          (MPI_Gatherv r buf1 n sample recvcounts displs m) n := by
  simp [MPI_Gatherv, List.range_succ]

/-- The gather with the counts and offsets of an exclusive prefix sum: after the
blocks of ranks `0, …, n-1` the records from `buf1` on are the samples of these
ranks one after the other, each block is in its place, and nothing else changed. -/
theorem gatherv_invariant {P : Type} (r buf1 k : Nat) (hr : 0 < r) (sample : Nat → List P)
    (recvcounts displs : Nat → Int) (m : Nat → P)
    (hcnt : ∀ i, i < k → recvcounts i = (r : Int) * ((sample i).length : Int))
    (hdsp : ∀ i, i < k →
      displs i = (r : Int) * ((∑ j ∈ Finset.range i, (sample j).length : Nat) : Int))
    (n : Nat) (hn : n ≤ k) :
    ∃ m', MPI_Gatherv r buf1 n sample recvcounts displs m = some m' ∧
      readArr m' buf1 (∑ j ∈ Finset.range n, (sample j).length)
        = ((List.range n).map sample).flatten ∧
      (∀ i, i < n →
        readArr m' (buf1 + ∑ j ∈ Finset.range i, (sample j).length) (sample i).length
          = sample i) ∧
      ∀ a, (a < buf1 ∨ buf1 + ∑ j ∈ Finset.range n, (sample j).length ≤ a) → m' a = m a := by
  induction n with
  | zero =>
    exact ⟨m, rfl, by simp [readArr], by intro i hi; omega, fun _ _ => rfl⟩
  | succ n ih =>
    obtain ⟨m', hm', hcat, hblk, hout⟩ := ih (by omega)
    have hrz : (r : Int) ≠ 0 := by exact_mod_cast (Nat.pos_iff_ne_zero.mp hr)
    have hd := hdsp n (by omega)
    have hdiv : (displs n / (r : Int)).toNat = ∑ j ∈ Finset.range n, (sample j).length := by
      rw [hd, Int.mul_ediv_cancel_left _ hrz, Int.toNat_ofNat]
    have hcond : recvcounts n = (r : Int) * ((sample n).length : Int) ∧ 0 ≤ displs n ∧
        (r : Int) ∣ displs n := by
      refine ⟨hcnt n (by omega), ?_, ?_⟩
      · rw [hd]
        exact mul_nonneg (Int.ofNat_nonneg r) (Int.ofNat_nonneg _)
      · rw [hd]
        exact Dvd.intro _ rfl
    refine ⟨writeArr m' (buf1 + ∑ j ∈ Finset.range n, (sample j).length) (sample n), ?_, ?_, ?_,
      ?_⟩
    · rw [gatherv_succ, hm']
      simp only [gathervStep, if_pos hcond, hdiv]
      rfl
    · rw [Finset.sum_range_succ, readArr_add, readArr_writeArr, List.range_succ, List.map_append,
        List.flatten_append, ← hcat]
      simp only [List.map_cons, List.map_nil, List.flatten_cons, List.flatten_nil,
        List.append_nil]
      congr 1
      apply readArr_congr
      intro j hj
      exact writeArr_outside _ _ _ _ (Or.inl (by omega))
    · intro i hi
      rcases Nat.lt_or_ge i n with h | h
      · refine Eq.trans ?_ (hblk i h)
        apply readArr_congr
        intro j hj
        apply writeArr_outside
        left
        have hmono : ∑ j ∈ Finset.range (i + 1), (sample j).length
            ≤ ∑ j ∈ Finset.range n, (sample j).length :=
          Finset.sum_le_sum_of_subset (by
            intro x hx
            have := Finset.mem_range.mp hx
            exact Finset.mem_range.mpr (by omega))
        rw [Finset.sum_range_succ] at hmono
        omega
      · have : i = n := by omega
        subst this
        exact readArr_writeArr _ _ _
    · intro a ha
      rw [Finset.sum_range_succ] at ha
      rw [writeArr_outside _ _ _ _ (by omega)]
      exact hout a (by omega)

/-- For non-negative counts whose total byte length fits an `int`, the state
after the loop of lines 71-75: the total times the record size, the offsets and
the byte counts. -/
theorem countLoop_prefix_sums (r k : Nat) (c : Nat → Int) (hc : ∀ i, i < k → 0 ≤ c i)
    (hfit : (r : Int) * ∑ j ∈ Finset.range k, c j < 2 ^ 31) :
    (∀ n, n ≤ k →
      (r : Int) * (coordinatorCounts r n c).ns = (r : Int) * ∑ j ∈ Finset.range n, c j) ∧
    (∀ i, i < k → (coordinatorCounts r k c).disp i = (r : Int) * ∑ j ∈ Finset.range i, c j) ∧
    (∀ i, i < k → (coordinatorCounts r k c).nsub_recv i = (r : Int) * c i) ∧
    (0 < r → (coordinatorCounts r k c).ns = ∑ j ∈ Finset.range k, c j) := by
  obtain ⟨hd, hr, -, -⟩ := countLoop_cells r c k
  have hS0 : ∀ n, n ≤ k → 0 ≤ ∑ j ∈ Finset.range n, c j := sum_range_nonneg c k hc
  have hSk : ∀ n, n ≤ k → ∑ j ∈ Finset.range n, c j ≤ ∑ j ∈ Finset.range k, c j :=
    sum_range_mono c k hc
  have hr0 : (0 : Int) ≤ (r : Int) := Int.ofNat_nonneg r
  have hprod : ∀ n, n ≤ k → 0 ≤ (r : Int) * ∑ j ∈ Finset.range n, c j ∧
      (r : Int) * ∑ j ∈ Finset.range n, c j < 2 ^ 31 := by
    intro n hn
    refine ⟨mul_nonneg hr0 (hS0 n hn), lt_of_le_of_lt ?_ hfit⟩
    exact mul_le_mul_of_nonneg_left (hSk n hn) hr0
  have hfit' : 0 < r → ∑ j ∈ Finset.range k, c j < 2 ^ 31 := by
    intro hpos
    have h1 : (1 : Int) ≤ (r : Int) := by exact_mod_cast hpos
    have h2 := hS0 k (le_refl k)
    nlinarith
  have hns : ∀ n, n ≤ k →
      (r : Int) * (coordinatorCounts r n c).ns = (r : Int) * ∑ j ∈ Finset.range n, c j := by
    intro n hn
    rcases Nat.eq_zero_or_pos r with h0 | hpos
    · simp [h0]
    · rw [countLoop_ns r c k hc (hfit' hpos) n hn]
  have hcell : ∀ i, i < k → 0 ≤ (r : Int) * c i ∧ (r : Int) * c i < 2 ^ 31 := by
    intro i hi
    have h1 := (hprod (i + 1) (by omega)).2
    have h2 := (hprod i (by omega)).1
    rw [Finset.sum_range_succ, mul_add] at h1
    exact ⟨mul_nonneg hr0 (hc i hi), by omega⟩
  refine ⟨hns, ?_, ?_, fun hpos => countLoop_ns r c k hc (hfit' hpos) k (le_refl k)⟩
  · intro i hi
    rw [hd i hi, mul_comm, hns i (by omega)]
    have h1 := hprod i (by omega)
    exact toInt32_of_range _ (by omega) (by omega)
  · intro i hi
    rw [hr i hi, mul_comm]
    have h1 := hcell i hi
    exact toInt32_of_range _ (by omega) (by omega)

theorem cast_sum_lengths {P : Type} (sample : Nat → List P) (n : Nat) :
    ((∑ j ∈ Finset.range n, (sample j).length : Nat) : Int)
      = ∑ j ∈ Finset.range n, ((sample j).length : Int) := by
  push_cast
  rfl

/-- The counts, offsets and total the coordinator computes from the samples, when
the total byte length fits an `int`. -/
theorem gatheredCounts_prefix_sums {P : Type} (r : Nat) (hr : 0 < r) (comm : Comm P)
    (out : Nat → P) (nsub : Nat)
    (hfit : (r : Int) *
      ((∑ i ∈ Finset.range comm.nnode, (samples comm out nsub i).length : Nat) : Int)
        < 2 ^ 31) :
    (gatheredCounts r comm out nsub).ns
      = ((∑ i ∈ Finset.range comm.nnode, (samples comm out nsub i).length : Nat) : Int) ∧
    (∀ i, i < comm.nnode → (gatheredCounts r comm out nsub).nsub_recv i
      = (r : Int) * ((samples comm out nsub i).length : Int)) ∧
    (∀ i, i < comm.nnode → (gatheredCounts r comm out nsub).disp i
      = (r : Int) * ((∑ j ∈ Finset.range i, (samples comm out nsub j).length : Nat) : Int)) := by
  rw [cast_sum_lengths] at hfit
  obtain ⟨-, hd, hc, hns⟩ := countLoop_prefix_sums r comm.nnode
    (fun i => ((samples comm out nsub i).length : Int)) (fun i _ => Int.ofNat_nonneg _) hfit
  refine ⟨?_, hc, ?_⟩
  · rw [cast_sum_lengths]
    exact hns hr
  · intro i hi
    rw [cast_sum_lengths]
    exact hd i hi

/-! ### Rounding to the nearest integer -/

theorem roundHalfEven_cases (q : ℚ) :
    roundHalfEven q = ⌊q⌋ ∨ roundHalfEven q = ⌊q⌋ + 1 := by
  unfold roundHalfEven
  split
  · exact Or.inl rfl
  · split
    · exact Or.inr rfl
    · split
      · exact Or.inl rfl
      · exact Or.inr rfl

theorem roundHalfEven_int (n : Int) : roundHalfEven (n : ℚ) = n := by
  unfold roundHalfEven
  simp

theorem abs_sub_roundHalfEven_le (q : ℚ) : |q - (roundHalfEven q : ℚ)| ≤ 1 / 2 := by
  have h1 : ((⌊q⌋ : Int) : ℚ) ≤ q := Int.floor_le q
  have h2 : q < ((⌊q⌋ : Int) : ℚ) + 1 := Int.lt_floor_add_one q
  unfold roundHalfEven
  rw [abs_le]
  split
  · constructor <;> linarith
  · split
    · push_cast
      constructor <;> linarith
    · have h3 : q - ⌊q⌋ = 1 / 2 := le_antisymm (by linarith) (by linarith)
      split
      · constructor <;> linarith
      · push_cast
        constructor <;> linarith

theorem roundHalfEven_eq_of_near (q : ℚ) (n : Int) (h : |q - (n : ℚ)| < 1 / 2) :
    roundHalfEven q = n := by
  have h1 : ((⌊q⌋ : Int) : ℚ) ≤ q := Int.floor_le q
  have h2 : q < ((⌊q⌋ : Int) : ℚ) + 1 := Int.lt_floor_add_one q
  rw [abs_lt] at h
  obtain ⟨h3, h4⟩ := h
  have h5 : n - 1 ≤ ⌊q⌋ := by
    apply Int.le_floor.mpr
    push_cast
    linarith
  have h6 : ⌊q⌋ ≤ n := by
    have : ((⌊q⌋ : Int) : ℚ) < (n : ℚ) + 1 := by linarith
    have : ⌊q⌋ < n + 1 := by exact_mod_cast this
    omega
  have h7 : ⌊q⌋ = n - 1 ∨ ⌊q⌋ = n := by omega
  unfold roundHalfEven
  rcases h7 with h7 | h7
  · have h8 : ((⌊q⌋ : Int) : ℚ) = (n : ℚ) - 1 := by rw [h7]; push_cast; ring
    rw [if_neg (by rw [h8]; linarith), if_pos (by rw [h8]; linarith), h7]
    ring
  · have h8 : ((⌊q⌋ : Int) : ℚ) = (n : ℚ) := by rw [h7]
    rw [if_pos (by rw [h8]; linarith), h7]

theorem le_roundHalfEven (q : ℚ) (m : Int) (h : (m : ℚ) ≤ q) : m ≤ roundHalfEven q := by
  have h1 : m ≤ ⌊q⌋ := Int.le_floor.mpr h
  rcases roundHalfEven_cases q with h2 | h2 <;> omega

theorem roundHalfEven_le (q : ℚ) (m : Int) (h : q ≤ (m : ℚ)) : roundHalfEven q ≤ m := by
  by_cases hq : q = (m : ℚ)
  · rw [hq, roundHalfEven_int]
  · have hlt : q < (m : ℚ) := lt_of_le_of_ne h hq
    have h1 : ⌊q⌋ < m := Int.floor_lt.mpr hlt
    rcases roundHalfEven_cases q with h2 | h2 <;> omega

/-! ### The spacing of binary64 -/

theorem log2_eq (x : ℚ) (e : Int) (h1 : (2 : ℚ) ^ e ≤ x) (h2 : x < (2 : ℚ) ^ (e + 1)) :
    Int.log 2 x = e := by
  have hx : 0 < x := lt_of_lt_of_le (by positivity) h1
  have a := (Int.zpow_le_iff_le_log (b := 2) (by norm_num) (x := e) hx).1 (by exact_mod_cast h1)
  have b := (Int.lt_zpow_iff_log_lt (b := 2) (by norm_num) (x := e + 1) hx).1 (by exact_mod_cast h2)
  omega

theorem log2_bounds (x : ℚ) (hx : 0 < x) :
    (2 : ℚ) ^ (Int.log 2 x) ≤ x ∧ x < (2 : ℚ) ^ (Int.log 2 x + 1) := by
  have a := Int.zpow_log_le_self (b := 2) (by norm_num) hx
  have b := Int.lt_zpow_succ_log_self (b := 2) (by norm_num) x
  exact ⟨by exact_mod_cast a, by exact_mod_cast b⟩

theorem ulp64_pos (x : ℚ) : 0 < ulp64 x := by
  unfold ulp64
  positivity

/-! ### Rounding to binary64 -/

theorem round64_of_multiple (x : ℚ) (n : Int) (hn : x = (n : ℚ) * ulp64 x)
    (hlt : |x| < 2 ^ 1024) : round64 x = F64.fin x := by
  have hu := ulp64_pos x
  have hq : x / ulp64 x = (n : ℚ) := by
    rw [eq_comm, eq_div_iff (ne_of_gt hu)]
    exact hn.symm
  have hy : roundRaw x = x := by
    unfold roundRaw
    rw [hq, roundHalfEven_int, ← hn]
  rw [abs_lt] at hlt
  unfold round64
  rw [hy, if_neg (by linarith), if_neg (by linarith)]

theorem round64_int (n : Int) (h : |n| < 2 ^ 53) : round64 (n : ℚ) = F64.fin (n : ℚ) := by
  have hlt : |(n : ℚ)| < 2 ^ 1024 := by
    have h1 : |(n : ℚ)| < 2 ^ 53 := by exact_mod_cast h
    have h2 : (2 : ℚ) ^ 53 ≤ 2 ^ 1024 := by norm_num
    linarith
  by_cases h0 : n = 0
  · subst h0
    exact round64_of_multiple _ 0 (by simp) (by simp)
  · have hpos : (0 : ℚ) < |(n : ℚ)| := abs_pos.mpr (by exact_mod_cast h0)
    have h1 : (1 : ℚ) ≤ |(n : ℚ)| := by
      have : (1 : Int) ≤ |n| := Int.one_le_abs h0
      exact_mod_cast this
    obtain ⟨hb1, hb2⟩ := log2_bounds _ hpos
    have he0 : 0 ≤ Int.log 2 |(n : ℚ)| := by
      have := (Int.zpow_le_iff_le_log (b := 2) (R := ℚ) (by norm_num) (x := 0) hpos).1
        (by simpa using h1)
      exact this
    have he1 : Int.log 2 |(n : ℚ)| < 53 := by
      have h3 : |(n : ℚ)| < ((2 : ℕ) : ℚ) ^ (53 : ℤ) := by
        have : |(n : ℚ)| < 2 ^ 53 := by exact_mod_cast h
        exact_mod_cast this
      exact (Int.lt_zpow_iff_log_lt (b := 2) (R := ℚ) (by norm_num) (x := 53) hpos).1 h3
    have hulp : ulp64 (n : ℚ) = 2 ^ (Int.log 2 |(n : ℚ)| - 52) := by
      unfold ulp64
      rw [max_eq_left (by omega)]
    apply round64_of_multiple _ (n * 2 ^ (52 - Int.log 2 |(n : ℚ)|).toNat) _ hlt
    rw [hulp]
    push_cast
    rw [mul_assoc, ← zpow_natCast, Int.toNat_of_nonneg (by omega), ← zpow_add₀ (by norm_num)]
    simp

theorem roundRaw_abs_error (x : ℚ) : |roundRaw x - x| ≤ ulp64 x / 2 := by
  have hu := ulp64_pos x
  have h1 := abs_sub_roundHalfEven_le (x / ulp64 x)
  have h2 : roundRaw x - x
      = -((x / ulp64 x - (roundHalfEven (x / ulp64 x) : ℚ)) * ulp64 x) := by
    unfold roundRaw
    field_simp
    ring
  rw [h2, abs_neg, abs_mul, abs_of_pos hu]
  calc |x / ulp64 x - (roundHalfEven (x / ulp64 x) : ℚ)| * ulp64 x
      ≤ 1 / 2 * ulp64 x := mul_le_mul_of_nonneg_right h1 (le_of_lt hu)
    _ = ulp64 x / 2 := by ring

theorem roundRaw_nonneg (x : ℚ) (hx : 0 ≤ x) : 0 ≤ roundRaw x := by
  have hu := ulp64_pos x
  unfold roundRaw
  apply mul_nonneg _ (le_of_lt hu)
  have : (0 : Int) ≤ roundHalfEven (x / ulp64 x) :=
    le_roundHalfEven _ 0 (by simpa using div_nonneg hx (le_of_lt hu))
  exact_mod_cast this

theorem round64_cases (x : ℚ) (hx : 0 ≤ x) :
    (round64 x = F64.pinf ∧ 2 ^ 1024 ≤ roundRaw x) ∨
      (round64 x = F64.fin (roundRaw x) ∧ roundRaw x < 2 ^ 1024) := by
  have h0 := roundRaw_nonneg x hx
  unfold round64
  by_cases h : (2 : ℚ) ^ 1024 ≤ roundRaw x
  · exact Or.inl ⟨by rw [if_pos h], h⟩
  · exact Or.inr ⟨by rw [if_neg h, if_neg (by linarith)], not_le.mp h⟩

theorem round64_eq_of_near (x : ℚ) (e n : Int) (h1 : (2 : ℚ) ^ e ≤ |x|)
    (h2 : |x| < (2 : ℚ) ^ (e + 1)) (he : -1022 ≤ e)
    (hn : |x / 2 ^ (e - 52) - (n : ℚ)| < 1 / 2)
    (hfin : |(n : ℚ) * 2 ^ (e - 52)| < 2 ^ 1024) :
    round64 x = F64.fin ((n : ℚ) * 2 ^ (e - 52)) := by
  have hulp : ulp64 x = 2 ^ (e - 52) := by
    unfold ulp64
    rw [log2_eq _ e h1 h2, max_eq_left he]
  rw [abs_lt] at hfin
  have hy : roundRaw x = (n : ℚ) * 2 ^ (e - 52) := by
    unfold roundRaw
    rw [hulp, roundHalfEven_eq_of_near _ n hn]
  unfold round64
  rw [hy, if_neg (by linarith), if_neg (by linarith)]

/-! ### The rounded square root -/

theorem natSqrt_floor_bounds (t : ℚ) (ht : 0 ≤ t) :
    ((Nat.sqrt ⌊t⌋₊ : ℚ)) ^ 2 ≤ t ∧ t < ((Nat.sqrt ⌊t⌋₊ : ℚ) + 1) ^ 2 := by
  have h1 : Nat.sqrt ⌊t⌋₊ * Nat.sqrt ⌊t⌋₊ ≤ ⌊t⌋₊ := Nat.sqrt_le _
  have h2 : ⌊t⌋₊ < (Nat.sqrt ⌊t⌋₊ + 1) * (Nat.sqrt ⌊t⌋₊ + 1) := Nat.lt_succ_sqrt _
  have h3 : ((⌊t⌋₊ : ℕ) : ℚ) ≤ t := Nat.floor_le ht
  have h4 : t < ((⌊t⌋₊ : ℕ) : ℚ) + 1 := Nat.lt_floor_add_one t
  have h1q : ((Nat.sqrt ⌊t⌋₊ : ℚ)) * (Nat.sqrt ⌊t⌋₊ : ℚ) ≤ ((⌊t⌋₊ : ℕ) : ℚ) := by
    exact_mod_cast h1
  have h2q : ((⌊t⌋₊ : ℕ) : ℚ) + 1 ≤ ((Nat.sqrt ⌊t⌋₊ : ℚ) + 1) * ((Nat.sqrt ⌊t⌋₊ : ℚ) + 1) := by
    have : ⌊t⌋₊ + 1 ≤ (Nat.sqrt ⌊t⌋₊ + 1) * (Nat.sqrt ⌊t⌋₊ + 1) := h2
    exact_mod_cast this
  constructor
  · rw [pow_two]
    linarith
  · rw [pow_two]
    linarith

/-- The rounded square root from a binade and a nearest integer. -/
theorem sqrtRound_eq_of_near (a : ℚ) (e : Int) (m : ℕ) (h1 : (2 : ℚ) ^ (2 * e) ≤ a)
    (h2 : a < (2 : ℚ) ^ (2 * e + 2)) (hm : 1 ≤ m)
    (hlo : ((m : ℚ) - 1 / 2) ^ 2 < a / (2 ^ (e - 52) * 2 ^ (e - 52)))
    (hhi : a / (2 ^ (e - 52) * 2 ^ (e - 52)) < ((m : ℚ) + 1 / 2) ^ 2) :
    sqrtRound a = (m : ℚ) * 2 ^ (e - 52) := by
  have ha : 0 < a := lt_of_lt_of_le (by positivity) h1
  obtain ⟨hb1, hb2⟩ := log2_bounds a ha
  have hlog : Int.log 2 a / 2 = e := by
    have c1 : 2 * e ≤ Int.log 2 a :=
      (Int.zpow_le_iff_le_log (b := 2) (R := ℚ) (by norm_num) (x := 2 * e) ha).1
        (by exact_mod_cast h1)
    have c2 : Int.log 2 a < 2 * e + 2 :=
      (Int.lt_zpow_iff_log_lt (b := 2) (R := ℚ) (by norm_num) (x := 2 * e + 2) ha).1
        (by exact_mod_cast h2)
    omega
  have ht : (0 : ℚ) ≤ a / (2 ^ (e - 52) * 2 ^ (e - 52)) := by positivity
  obtain ⟨hs1, hs2⟩ := natSqrt_floor_bounds _ ht
  have hm1 : (1 : ℚ) ≤ (m : ℚ) := by exact_mod_cast hm
  -- the integer square root is `m - 1` or `m`
  have hle : Nat.sqrt ⌊a / (2 ^ (e - 52) * 2 ^ (e - 52))⌋₊ ≤ m := by
    by_contra hc
    have : (m : ℚ) + 1 ≤ (Nat.sqrt ⌊a / (2 ^ (e - 52) * 2 ^ (e - 52))⌋₊ : ℚ) := by
      have : m + 1 ≤ Nat.sqrt ⌊a / (2 ^ (e - 52) * 2 ^ (e - 52))⌋₊ := by omega
      exact_mod_cast this
    nlinarith
  have hge : m ≤ Nat.sqrt ⌊a / (2 ^ (e - 52) * 2 ^ (e - 52))⌋₊ + 1 := by
    by_contra hc
    have : (Nat.sqrt ⌊a / (2 ^ (e - 52) * 2 ^ (e - 52))⌋₊ : ℚ) + 2 ≤ (m : ℚ) := by
      have : Nat.sqrt ⌊a / (2 ^ (e - 52) * 2 ^ (e - 52))⌋₊ + 2 ≤ m := by omega
      exact_mod_cast this
    have hn0 : (0 : ℚ) ≤ (Nat.sqrt ⌊a / (2 ^ (e - 52) * 2 ^ (e - 52))⌋₊ : ℚ) := Nat.cast_nonneg _
    nlinarith
  unfold sqrtRound
  simp only [hlog]
  rcases Nat.lt_or_ge (Nat.sqrt ⌊a / (2 ^ (e - 52) * 2 ^ (e - 52))⌋₊) m with hlt | hge'
  · have heq : Nat.sqrt ⌊a / (2 ^ (e - 52) * 2 ^ (e - 52))⌋₊ + 1 = m := by omega
    have heq' : (Nat.sqrt ⌊a / (2 ^ (e - 52) * 2 ^ (e - 52))⌋₊ : ℚ) = (m : ℚ) - 1 := by
      rw [← heq]
      push_cast
      ring
    rw [heq', if_neg (by
      have : (m : ℚ) - 1 + 1 / 2 = (m : ℚ) - 1 / 2 := by ring
      rw [this]
      exact not_lt.mpr (le_of_lt hlo)), if_pos (by
      have : (m : ℚ) - 1 + 1 / 2 = (m : ℚ) - 1 / 2 := by ring
      rw [this]
      exact hlo)]
    ring
  · have heq : Nat.sqrt ⌊a / (2 ^ (e - 52) * 2 ^ (e - 52))⌋₊ = m := by omega
    rw [heq, if_pos hhi]

theorem sqrtRound_sq (k : ℕ) (hk0 : 0 < k) (hk : k < 2 ^ 53) :
    sqrtRound ((k : ℚ) ^ 2) = (k : ℚ) := by
  have hpos : (0 : ℚ) < (k : ℚ) := by exact_mod_cast hk0
  obtain ⟨hb1, hb2⟩ := log2_bounds _ hpos
  have he0 : 0 ≤ Int.log 2 (k : ℚ) := by
    have h1 : (1 : ℚ) ≤ (k : ℚ) := by exact_mod_cast hk0
    exact (Int.zpow_le_iff_le_log (b := 2) (R := ℚ) (by norm_num) (x := 0) hpos).1
      (by simpa using h1)
  have he1 : Int.log 2 (k : ℚ) < 53 := by
    have h3 : (k : ℚ) < ((2 : ℕ) : ℚ) ^ (53 : ℤ) := by
      have : (k : ℚ) < 2 ^ 53 := by exact_mod_cast hk
      exact_mod_cast this
    exact (Int.lt_zpow_iff_log_lt (b := 2) (R := ℚ) (by norm_num) (x := 53) hpos).1 h3
  generalize Int.log 2 (k : ℚ) = e at hb1 hb2 he0 he1
  have hu : (2 : ℚ) ^ (e - 52) * 2 ^ (52 - e).toNat = 1 := by
    rw [← zpow_natCast, Int.toNat_of_nonneg (by omega), ← zpow_add₀ (by norm_num)]
    simp
  have hupos : (0 : ℚ) < 2 ^ (e - 52) := by positivity
  have ht : (k : ℚ) ^ 2 / (2 ^ (e - 52) * 2 ^ (e - 52))
      = ((k * 2 ^ (52 - e).toNat : ℕ) : ℚ) ^ 2 := by
    rw [div_eq_iff (by positivity)]
    push_cast
    have : ((k : ℚ) * 2 ^ (52 - e).toNat) ^ 2 * (2 ^ (e - 52) * 2 ^ (e - 52))
        = (k : ℚ) ^ 2 * ((2 ^ (e - 52) * 2 ^ (52 - e).toNat) ^ 2) := by ring
    rw [this, hu]
    ring
  have hN : 1 ≤ k * 2 ^ (52 - e).toNat := Nat.mul_pos hk0 (by positivity)
  have hNq : (1 : ℚ) ≤ ((k * 2 ^ (52 - e).toNat : ℕ) : ℚ) := by exact_mod_cast hN
  have hres := sqrtRound_eq_of_near ((k : ℚ) ^ 2) e (k * 2 ^ (52 - e).toNat)
    (by
      have h2e : (0 : ℚ) < 2 ^ e := by positivity
      have : (2 : ℚ) ^ (2 * e) = 2 ^ e * 2 ^ e := by
        rw [← zpow_add₀ (by norm_num)]
        congr 1
        ring
      rw [this, pow_two]
      exact mul_le_mul hb1 hb1 (le_of_lt h2e) (le_of_lt hpos))
    (by
      have : (2 : ℚ) ^ (2 * e + 2) = (2 ^ (e + 1)) * (2 ^ (e + 1)) := by
        rw [← zpow_add₀ (by norm_num)]
        congr 1
        ring
      rw [this, pow_two]
      exact mul_lt_mul'' hb2 hb2 (le_of_lt hpos) (le_of_lt hpos))
    hN
    (by rw [ht]; nlinarith)
    (by rw [ht]; nlinarith)
  rw [hres]
  push_cast
  rw [mul_assoc, mul_comm ((2 : ℚ) ^ (52 - e).toNat), hu, mul_one]

/-! ### Error bounds -/

theorem roundRaw_zero : roundRaw 0 = 0 := by
  unfold roundRaw
  simp [roundHalfEven]

theorem roundRaw_rel_error (x : ℚ) :
    |roundRaw x - x| ≤ |x| * (1 / 2 ^ 53) + 1 / 2 ^ 1075 := by
  by_cases hx : x = 0
  · subst hx
    rw [roundRaw_zero]
    norm_num
  · have hpos : (0 : ℚ) < |x| := abs_pos.mpr hx
    have h1 := roundRaw_abs_error x
    obtain ⟨hb1, -⟩ := log2_bounds _ hpos
    have hu : ulp64 x / 2 ≤ |x| * (1 / 2 ^ 53) + 1 / 2 ^ 1075 := by
      unfold ulp64
      rcases le_total (-1022) (Int.log 2 |x|) with h | h
      · rw [max_eq_left h, zpow_sub₀ (by norm_num)]
        have : (2 : ℚ) ^ Int.log 2 |x| / 2 ^ (52 : ℤ) / 2 ≤ |x| * (1 / 2 ^ 53) := by
          have e1 : (2 : ℚ) ^ Int.log 2 |x| / 2 ^ (52 : ℤ) / 2
              = (2 : ℚ) ^ Int.log 2 |x| * (1 / 2 ^ 53) := by norm_num; ring
          rw [e1]
          exact mul_le_mul_of_nonneg_right hb1 (by norm_num)
        have h3 : (0 : ℚ) ≤ 1 / 2 ^ 1075 := by positivity
        linarith
      · rw [max_eq_right h]
        have e1 : (2 : ℚ) ^ ((-1022 : ℤ) - 52) / 2 = 1 / 2 ^ 1075 := by norm_num
        rw [e1]
        have h3 : (0 : ℚ) ≤ |x| * (1 / 2 ^ 53) := by positivity
        linarith
    linarith

/-- What `sqrtRound` returns: a multiple `m * u` of the spacing `u` of the
binade of the root, with `m` the integer nearest to the root divided by `u`. -/
theorem sqrtRound_spec (a : ℚ) (ha : 0 < a) :
    ∃ (u : ℚ) (n m : ℕ), sqrtRound a = (m : ℚ) * u ∧ 0 < u ∧
      (u * 2 ^ 52) ^ 2 ≤ a ∧
      (n : ℚ) ^ 2 ≤ a / (u * u) ∧ a / (u * u) < ((n : ℚ) + 1) ^ 2 ∧
      ((m = n ∧ a / (u * u) ≤ ((n : ℚ) + 1 / 2) ^ 2) ∨
        (m = n + 1 ∧ ((n : ℚ) + 1 / 2) ^ 2 ≤ a / (u * u))) := by
  obtain ⟨hb1, -⟩ := log2_bounds a ha
  have hupos : (0 : ℚ) < 2 ^ (Int.log 2 a / 2 - 52) := by positivity
  have ht : (0 : ℚ) ≤ a / (2 ^ (Int.log 2 a / 2 - 52) * 2 ^ (Int.log 2 a / 2 - 52)) := by
    positivity
  obtain ⟨hs1, hs2⟩ := natSqrt_floor_bounds _ ht
  have hbin : ((2 : ℚ) ^ (Int.log 2 a / 2 - 52) * 2 ^ 52) ^ 2 ≤ a := by
    have e1 : ((2 : ℚ) ^ (Int.log 2 a / 2 - 52) * 2 ^ 52) ^ 2
        = (2 : ℚ) ^ (2 * (Int.log 2 a / 2)) := by
      rw [zpow_sub₀ (by norm_num), two_mul, zpow_add₀ (by norm_num)]
      field_simp
      norm_num
      ring
    rw [e1]
    refine le_trans ?_ hb1
    exact zpow_le_zpow_right₀ (by norm_num) (by omega)
  refine ⟨2 ^ (Int.log 2 a / 2 - 52),
    Nat.sqrt ⌊a / (2 ^ (Int.log 2 a / 2 - 52) * 2 ^ (Int.log 2 a / 2 - 52))⌋₊, ?_⟩
  unfold sqrtRound
  simp only
  split
  · rename_i h
    exact ⟨_, rfl, hupos, hbin, hs1, hs2, Or.inl ⟨rfl, le_of_lt h⟩⟩
  · rename_i h
    split
    · rename_i h'
      refine ⟨Nat.sqrt ⌊a / (2 ^ (Int.log 2 a / 2 - 52) * 2 ^ (Int.log 2 a / 2 - 52))⌋₊ + 1,
        by push_cast; ring, hupos, hbin, hs1, hs2, Or.inr ⟨rfl, le_of_lt h'⟩⟩
    · rename_i h'
      split
      · exact ⟨_, rfl, hupos, hbin, hs1, hs2, Or.inl ⟨rfl, not_lt.mp h'⟩⟩
      · refine ⟨Nat.sqrt ⌊a / (2 ^ (Int.log 2 a / 2 - 52) * 2 ^ (Int.log 2 a / 2 - 52))⌋₊ + 1,
          by push_cast; ring, hupos, hbin, hs1, hs2, Or.inr ⟨rfl, not_lt.mp h⟩⟩

theorem sqrtRound_rel_error (a : ℚ) (ha : 0 < a) :
    0 ≤ sqrtRound a ∧
    |((sqrtRound a : ℚ) : ℝ) - Real.sqrt (a : ℝ)| ≤ Real.sqrt (a : ℝ) * (1 / 2 ^ 53) := by
  obtain ⟨u, n, m, hres, hu, hbin, hn1, hn2, hm⟩ := sqrtRound_spec a ha
  have hU : (0 : ℝ) < (u : ℝ) := by exact_mod_cast hu
  have hA : (0 : ℝ) < (a : ℝ) := by exact_mod_cast ha
  have hbinR : ((u : ℝ) * 2 ^ 52) ^ 2 ≤ (a : ℝ) := by exact_mod_cast hbin
  have hn1R : ((n : ℝ)) ^ 2 ≤ (a : ℝ) / ((u : ℝ) * (u : ℝ)) := by exact_mod_cast hn1
  have hn2R : (a : ℝ) / ((u : ℝ) * (u : ℝ)) < ((n : ℝ) + 1) ^ 2 := by exact_mod_cast hn2
  have hT : (0 : ℝ) ≤ (a : ℝ) / ((u : ℝ) * (u : ℝ)) := by positivity
  have hroot : Real.sqrt (a : ℝ) = Real.sqrt ((a : ℝ) / ((u : ℝ) * (u : ℝ))) * (u : ℝ) := by
    have e1 : (a : ℝ) = (a : ℝ) / ((u : ℝ) * (u : ℝ)) * ((u : ℝ) * (u : ℝ)) := by
      field_simp
    conv_lhs => rw [e1]
    rw [Real.sqrt_mul hT, Real.sqrt_mul_self (le_of_lt hU)]
  have hn0 : (0 : ℝ) ≤ (n : ℝ) := Nat.cast_nonneg n
  have hlow : (n : ℝ) ≤ Real.sqrt ((a : ℝ) / ((u : ℝ) * (u : ℝ))) :=
    Real.le_sqrt_of_sq_le hn1R
  have hupp : Real.sqrt ((a : ℝ) / ((u : ℝ) * (u : ℝ))) < (n : ℝ) + 1 := by
    rw [Real.sqrt_lt' (by linarith)]
    exact hn2R
  have hnear : |(m : ℝ) - Real.sqrt ((a : ℝ) / ((u : ℝ) * (u : ℝ)))| ≤ 1 / 2 := by
    rcases hm with ⟨hmn, hle⟩ | ⟨hmn, hge⟩
    · have hleR : (a : ℝ) / ((u : ℝ) * (u : ℝ)) ≤ ((n : ℝ) + 1 / 2) ^ 2 := by
        have := (Rat.cast_le (K := ℝ)).mpr hle
        push_cast at this
        exact this
      have h3 : Real.sqrt ((a : ℝ) / ((u : ℝ) * (u : ℝ))) ≤ (n : ℝ) + 1 / 2 :=
        Real.sqrt_le_iff.mpr ⟨by linarith, hleR⟩
      rw [hmn, abs_le]
      constructor <;> linarith
    · have hgeR : ((n : ℝ) + 1 / 2) ^ 2 ≤ (a : ℝ) / ((u : ℝ) * (u : ℝ)) := by
        have := (Rat.cast_le (K := ℝ)).mpr hge
        push_cast at this
        exact this
      have h3 : (n : ℝ) + 1 / 2 ≤ Real.sqrt ((a : ℝ) / ((u : ℝ) * (u : ℝ))) :=
        Real.le_sqrt_of_sq_le hgeR
      rw [hmn, abs_le]
      push_cast
      constructor <;> linarith
  have hspacing : (u : ℝ) * 2 ^ 52 ≤ Real.sqrt (a : ℝ) := Real.le_sqrt_of_sq_le hbinR
  constructor
  · rw [hres]
    exact mul_nonneg (Nat.cast_nonneg m) (le_of_lt hu)
  · rw [hres]
    push_cast
    rw [hroot] at hspacing ⊢
    have e2 : (m : ℝ) * (u : ℝ) - Real.sqrt ((a : ℝ) / ((u : ℝ) * (u : ℝ))) * (u : ℝ)
        = ((m : ℝ) - Real.sqrt ((a : ℝ) / ((u : ℝ) * (u : ℝ)))) * (u : ℝ) := by ring
    rw [e2, abs_mul, abs_of_pos hU]
    have h4 : |(m : ℝ) - Real.sqrt ((a : ℝ) / ((u : ℝ) * (u : ℝ)))| * (u : ℝ)
        ≤ 1 / 2 * (u : ℝ) := mul_le_mul_of_nonneg_right hnear (le_of_lt hU)
    have h5 : (1 : ℝ) / 2 * (u : ℝ) = (u : ℝ) * 2 ^ 52 * (1 / 2 ^ 53) := by norm_num; ring
    have h6 : (u : ℝ) * 2 ^ 52 * (1 / 2 ^ 53)
        ≤ Real.sqrt ((a : ℝ) / ((u : ℝ) * (u : ℝ))) * (u : ℝ) * (1 / 2 ^ 53) :=
      mul_le_mul_of_nonneg_right hspacing (by positivity)
    linarith

/-! ### Line 43 step by step -/

/-- The four rounded values of line 43 for a non-negative product: the test
fires when one of them overflows or the last exceeds `nbuf`. -/
theorem line43_chain (f : ℚ) (np nbuf : Int) (hx : 0 ≤ f * (np : ℚ)) :
    ∃ a s t v : ℚ, a = roundRaw (f * (np : ℚ)) ∧ (s = if a = 0 then 0 else sqrtRound a) ∧
      t = roundRaw (5 * s) ∧ v = roundRaw (a + t) ∧ 0 ≤ a ∧ 0 ≤ s ∧ 0 ≤ t ∧ 0 ≤ v ∧
      (localCheckFails64 f np nbuf ↔
        (2 ^ 1024 ≤ a ∨ 2 ^ 1024 ≤ t ∨ 2 ^ 1024 ≤ v ∨ (nbuf : ℚ) < v)) := by
  have ha0 : 0 ≤ roundRaw (f * (np : ℚ)) := roundRaw_nonneg _ hx
  have hs0 : (0 : ℚ) ≤ if roundRaw (f * (np : ℚ)) = 0 then 0
      else sqrtRound (roundRaw (f * (np : ℚ))) := by
    split
    · exact le_refl _
    · rename_i h
      exact (sqrtRound_rel_error _ (lt_of_le_of_ne ha0 (Ne.symm h))).1
  generalize hs : (if roundRaw (f * (np : ℚ)) = 0 then (0 : ℚ)
      else sqrtRound (roundRaw (f * (np : ℚ)))) = s at hs0
  have ht0 : 0 ≤ roundRaw (5 * s) := roundRaw_nonneg _ (by linarith)
  have hv0 : 0 ≤ roundRaw (roundRaw (f * (np : ℚ)) + roundRaw (5 * s)) :=
    roundRaw_nonneg _ (by linarith)
  refine ⟨_, s, _, _, rfl, hs.symm, rfl, rfl, ha0, hs0, ht0, hv0, ?_⟩
  have hmul : mul64 (F64.fin f) (ofInt np) = round64 (f * (np : ℚ)) := rfl
  unfold localCheckFails64
  rw [hmul]
  rcases round64_cases _ hx with ⟨hp, hbig⟩ | ⟨hp, hsmall⟩
  · rw [hp]
    have h5 : mul64 (ofInt 5) (sqrt64 F64.pinf) = F64.pinf := by
      show infOfSign (((5 : Int) : ℚ)) = F64.pinf
      unfold infOfSign
      rw [if_pos (by norm_num)]
    rw [h5]
    simp only [add64, gt64, ofInt, true_iff]
    exact Or.inl hbig
  · rw [hp]
    have hsq : sqrt64 (F64.fin (roundRaw (f * (np : ℚ)))) = F64.fin s := by
      show (if roundRaw (f * (np : ℚ)) < 0 then F64.nan
        else if roundRaw (f * (np : ℚ)) = 0 then F64.fin 0
        else F64.fin (sqrtRound (roundRaw (f * (np : ℚ))))) = F64.fin s
      rw [if_neg (not_lt.mpr ha0), ← hs]
      split <;> rfl
    rw [hsq]
    have hmul5 : mul64 (ofInt 5) (F64.fin s) = round64 (5 * s) := by
      show round64 (((5 : Int) : ℚ) * s) = round64 (5 * s)
      norm_num
    rw [hmul5]
    rcases round64_cases (5 * s) (by linarith) with ⟨hq, hbig⟩ | ⟨hq, hsmall'⟩
    · rw [hq]
      simp only [add64, gt64, ofInt]
      simp only [true_iff]
      exact Or.inr (Or.inl hbig)
    · rw [hq]
      have hadd : add64 (F64.fin (roundRaw (f * (np : ℚ)))) (F64.fin (roundRaw (5 * s)))
          = round64 (roundRaw (f * (np : ℚ)) + roundRaw (5 * s)) := rfl
      rw [hadd]
      rcases round64_cases (roundRaw (f * (np : ℚ)) + roundRaw (5 * s)) (by linarith)
        with ⟨hr, hbig⟩ | ⟨hr, hsmall''⟩
      · rw [hr]
        simp only [gt64, ofInt, true_iff]
        exact Or.inr (Or.inr (Or.inl hbig))
      · rw [hr]
        simp only [gt64, ofInt, decide_eq_true_eq]
        constructor
        · intro h
          exact Or.inr (Or.inr (Or.inr h))
        · rintro (h | h | h | h)
          · linarith
          · linarith
          · linarith
          · exact h


/-! ### From the exact value to the rounded one -/


/-- If the exact value is at most `N - 1`, the rounded value is at most `N`. -/
theorem rounded_le_of_exact_le (X A S T V N : ℝ) (hX : 0 ≤ X)
    (hA : A ≤ X + (X * (1 / 2 ^ 53) + 1 / 2 ^ 1075))
    (hS : S ≤ Real.sqrt A + Real.sqrt A * (1 / 2 ^ 53))
    (hT : T ≤ 5 * S + (5 * S * (1 / 2 ^ 53) + 1 / 2 ^ 1075))
    (hV : V ≤ A + T + ((A + T) * (1 / 2 ^ 53) + 1 / 2 ^ 1075))
    (hL : X + 5 * Real.sqrt X ≤ N - 1) (hN : N ≤ 2 ^ 31) :
    V ≤ N ∧ A ≤ 2 ^ 32 ∧ T ≤ 2 ^ 32 := by
  have hR0 : 0 ≤ Real.sqrt X := Real.sqrt_nonneg X
  have hRR : Real.sqrt X * Real.sqrt X = X := Real.mul_self_sqrt hX
  have hη : (1 : ℝ) / 2 ^ 1075 ≤ 1 / 2 ^ 60 := by
    apply one_div_le_one_div_of_le (by positivity)
    exact pow_le_pow_right₀ (by norm_num) (by norm_num)
  have hXb : X ≤ 2 ^ 31 := by linarith
  have hRb : Real.sqrt X ≤ 2 ^ 16 := by nlinarith
  have hXd : X * (1 / 2 ^ 53) ≤ 2 ^ 31 * (1 / 2 ^ 53) :=
    mul_le_mul_of_nonneg_right hXb (by positivity)
  have hA1 : A ≤ X + 1 / 2 ^ 21 := by
    have : (2 : ℝ) ^ 31 * (1 / 2 ^ 53) + 1 / 2 ^ 60 ≤ 1 / 2 ^ 21 := by norm_num
    linarith
  have hsA : Real.sqrt A ≤ Real.sqrt X + 1 / 2 ^ 10 := by
    rw [Real.sqrt_le_iff]
    refine ⟨by positivity, ?_⟩
    have : (Real.sqrt X + 1 / 2 ^ 10) ^ 2
        = Real.sqrt X * Real.sqrt X + 2 * (1 / 2 ^ 10) * Real.sqrt X + (1 / 2 ^ 10) ^ 2 := by
      ring
    rw [this, hRR]
    have h1 : (0 : ℝ) ≤ 2 * (1 / 2 ^ 10) * Real.sqrt X := by positivity
    have h2 : (1 : ℝ) / 2 ^ 21 ≤ (1 / 2 ^ 10) ^ 2 := by norm_num
    linarith
  have hsA0 : 0 ≤ Real.sqrt A := Real.sqrt_nonneg A
  have hsAb : Real.sqrt A ≤ 2 ^ 17 := by
    have : (1 : ℝ) / 2 ^ 10 ≤ 2 ^ 16 := by norm_num
    have : (2 : ℝ) ^ 16 + 2 ^ 16 = 2 ^ 17 := by norm_num
    linarith
  have hsAd : Real.sqrt A * (1 / 2 ^ 53) ≤ 2 ^ 17 * (1 / 2 ^ 53) :=
    mul_le_mul_of_nonneg_right hsAb (by positivity)
  have hS1 : S ≤ Real.sqrt X + 1 / 2 ^ 10 + 1 / 2 ^ 36 := by
    have : (2 : ℝ) ^ 17 * (1 / 2 ^ 53) = 1 / 2 ^ 36 := by norm_num
    linarith
  have hSb : S ≤ 2 ^ 17 := by
    have : (1 : ℝ) / 2 ^ 10 + 1 / 2 ^ 36 ≤ 2 ^ 16 := by norm_num
    have : (2 : ℝ) ^ 16 + 2 ^ 16 = 2 ^ 17 := by norm_num
    linarith
  have hSd : 5 * S * (1 / 2 ^ 53) ≤ 5 * 2 ^ 17 * (1 / 2 ^ 53) :=
    mul_le_mul_of_nonneg_right (by linarith) (by positivity)
  have hT1 : T ≤ 5 * Real.sqrt X + 1 / 2 ^ 7 := by
    have : 5 * (1 / 2 ^ 10 + 1 / 2 ^ 36) + (5 * 2 ^ 17 * (1 / 2 ^ 53) + 1 / 2 ^ 60)
        ≤ (1 : ℝ) / 2 ^ 7 := by norm_num
    linarith
  have hAT : A + T ≤ N - 1 + 1 / 2 ^ 6 := by
    have : (1 : ℝ) / 2 ^ 21 + 1 / 2 ^ 7 ≤ 1 / 2 ^ 6 := by norm_num
    linarith
  have hATb : A + T ≤ 2 ^ 32 := by
    have : (2 : ℝ) ^ 31 - 1 + 1 / 2 ^ 6 ≤ 2 ^ 32 := by norm_num
    linarith
  have hATd : (A + T) * (1 / 2 ^ 53) ≤ 2 ^ 32 * (1 / 2 ^ 53) :=
    mul_le_mul_of_nonneg_right hATb (by positivity)
  refine ⟨?_, by linarith, by linarith⟩
  have : (1 : ℝ) / 2 ^ 6 + (2 ^ 32 * (1 / 2 ^ 53) + 1 / 2 ^ 60) ≤ 1 := by norm_num
  linarith

/-- If the exact value is at least `N + 1`, the rounded value exceeds `N`. -/
theorem rounded_gt_of_exact_ge (X A S T V N : ℝ) (hX : 0 ≤ X) (hT0 : 0 ≤ T)
    (hAl : X - (X * (1 / 2 ^ 53) + 1 / 2 ^ 1075) ≤ A)
    (hAu : A ≤ X + (X * (1 / 2 ^ 53) + 1 / 2 ^ 1075))
    (hSl : Real.sqrt A - Real.sqrt A * (1 / 2 ^ 53) ≤ S)
    (hSu : S ≤ Real.sqrt A + Real.sqrt A * (1 / 2 ^ 53))
    (hTl : 5 * S - (5 * S * (1 / 2 ^ 53) + 1 / 2 ^ 1075) ≤ T)
    (hTu : T ≤ 5 * S + (5 * S * (1 / 2 ^ 53) + 1 / 2 ^ 1075))
    (hVl : A + T - ((A + T) * (1 / 2 ^ 53) + 1 / 2 ^ 1075) ≤ V)
    (hL : N + 1 ≤ X + 5 * Real.sqrt X) (hN0 : 0 ≤ N) (hN : N ≤ 2 ^ 31) :
    N < V := by
  have hR0 : 0 ≤ Real.sqrt X := Real.sqrt_nonneg X
  have hRR : Real.sqrt X * Real.sqrt X = X := Real.mul_self_sqrt hX
  have hη : (1 : ℝ) / 2 ^ 1075 ≤ 1 / 2 ^ 60 := by
    apply one_div_le_one_div_of_le (by positivity)
    exact pow_le_pow_right₀ (by norm_num) (by norm_num)
  have hd : (1 : ℝ) / 2 ^ 53 ≤ 1 / 2 := by norm_num
  rcases le_or_lt ((2 : ℝ) ^ 35) X with hbig | hsmall
  · -- a large product
    have h1 : X * (1 / 2 ^ 53) ≤ X * (1 / 2) := mul_le_mul_of_nonneg_left hd hX
    have h2 : (A + T) * (1 / 2 ^ 53) ≤ (A + T) * (1 / 2) :=
      mul_le_mul_of_nonneg_left hd (by linarith)
    have h3 : (2 : ℝ) ^ 31 < 2 ^ 35 / 4 - 1 := by norm_num
    have h4 : (1 : ℝ) / 2 ^ 60 ≤ 1 / 4 := by norm_num
    linarith
  · have hRb : Real.sqrt X ≤ 2 ^ 18 := by
      have : X ≤ (2 ^ 18) ^ 2 := by
        have : (2 : ℝ) ^ 35 ≤ (2 ^ 18) ^ 2 := by norm_num
        linarith
      exact Real.sqrt_le_iff.mpr ⟨by positivity, this⟩
    have hRl : 1 / 8 ≤ Real.sqrt X := by
      by_contra hc
      have hc' : Real.sqrt X < 1 / 8 := not_le.mp hc
      nlinarith
    have hXd : X * (1 / 2 ^ 53) ≤ 2 ^ 35 * (1 / 2 ^ 53) :=
      mul_le_mul_of_nonneg_right (le_of_lt hsmall) (by positivity)
    have hA1 : X - 1 / 2 ^ 17 ≤ A := by
      have : (2 : ℝ) ^ 35 * (1 / 2 ^ 53) + 1 / 2 ^ 60 ≤ 1 / 2 ^ 17 := by norm_num
      linarith
    have hA2 : A ≤ X + 1 / 2 ^ 17 := by
      have : (2 : ℝ) ^ 35 * (1 / 2 ^ 53) + 1 / 2 ^ 60 ≤ 1 / 2 ^ 17 := by norm_num
      linarith
    have hsAl : Real.sqrt X - 1 / 2 ^ 9 ≤ Real.sqrt A := by
      apply Real.le_sqrt_of_sq_le
      have : (Real.sqrt X - 1 / 2 ^ 9) ^ 2
          = Real.sqrt X * Real.sqrt X - 2 * (1 / 2 ^ 9) * Real.sqrt X + (1 / 2 ^ 9) ^ 2 := by
        ring
      rw [this, hRR]
      have h1 : 2 * (1 / 2 ^ 9) * (1 / 8) ≤ 2 * (1 / 2 ^ 9) * Real.sqrt X :=
        mul_le_mul_of_nonneg_left hRl (by positivity)
      have h2 : -(2 * (1 / 2 ^ 9) * (1 / 8)) + (1 / 2 ^ 9) ^ 2 ≤ -((1 : ℝ) / 2 ^ 17) := by
        norm_num
      linarith
    have hsAu : Real.sqrt A ≤ Real.sqrt X + 1 / 2 ^ 8 := by
      rw [Real.sqrt_le_iff]
      refine ⟨by positivity, ?_⟩
      have : (Real.sqrt X + 1 / 2 ^ 8) ^ 2
          = Real.sqrt X * Real.sqrt X + 2 * (1 / 2 ^ 8) * Real.sqrt X + (1 / 2 ^ 8) ^ 2 := by
        ring
      rw [this, hRR]
      have h1 : (0 : ℝ) ≤ 2 * (1 / 2 ^ 8) * Real.sqrt X := by positivity
      have h2 : (1 : ℝ) / 2 ^ 17 ≤ (1 / 2 ^ 8) ^ 2 := by norm_num
      linarith
    have hsA0 : 0 ≤ Real.sqrt A := Real.sqrt_nonneg A
    have hsAb : Real.sqrt A ≤ 2 ^ 19 := by
      have : (2 : ℝ) ^ 18 + 1 / 2 ^ 8 ≤ 2 ^ 19 := by norm_num
      linarith
    have hsAd : Real.sqrt A * (1 / 2 ^ 53) ≤ 2 ^ 19 * (1 / 2 ^ 53) :=
      mul_le_mul_of_nonneg_right hsAb (by positivity)
    have hS1 : Real.sqrt X - 1 / 2 ^ 9 - 1 / 2 ^ 34 ≤ S := by
      have : (2 : ℝ) ^ 19 * (1 / 2 ^ 53) = 1 / 2 ^ 34 := by norm_num
      linarith
    have hSb : S ≤ 2 ^ 20 := by
      have : (2 : ℝ) ^ 19 + 2 ^ 19 * (1 / 2 ^ 53) ≤ 2 ^ 20 := by norm_num
      linarith
    have hSd : 5 * S * (1 / 2 ^ 53) ≤ 5 * 2 ^ 20 * (1 / 2 ^ 53) :=
      mul_le_mul_of_nonneg_right (by linarith) (by positivity)
    have hT1 : 5 * Real.sqrt X - 1 / 2 ^ 6 ≤ T := by
      have : 5 * (1 / 2 ^ 9 + 1 / 2 ^ 34) + (5 * 2 ^ 20 * (1 / 2 ^ 53) + 1 / 2 ^ 60)
          ≤ (1 : ℝ) / 2 ^ 6 := by norm_num
      linarith
    have hTb : T ≤ 2 ^ 23 := by
      have : 5 * (2 : ℝ) ^ 20 + (5 * 2 ^ 20 * (1 / 2 ^ 53) + 1 / 2 ^ 60) ≤ 2 ^ 23 := by
        norm_num
      linarith
    have hATb : A + T ≤ 2 ^ 36 := by
      have : (2 : ℝ) ^ 35 + 1 / 2 ^ 17 + 2 ^ 23 ≤ 2 ^ 36 := by norm_num
      linarith
    have hATd : (A + T) * (1 / 2 ^ 53) ≤ 2 ^ 36 * (1 / 2 ^ 53) :=
      mul_le_mul_of_nonneg_right hATb (by positivity)
    have : (1 : ℝ) / 2 ^ 17 + 1 / 2 ^ 6 + (2 ^ 36 * (1 / 2 ^ 53) + 1 / 2 ^ 60) < 1 := by
      norm_num
    linarith


/-- The four rounded values of line 43 as real numbers, with the error of each
operation. -/
theorem line43_real_chain (f : ℚ) (np nbuf : Int) (hx : 0 ≤ f * (np : ℚ)) :
    ∃ A S T V : ℝ, 0 ≤ A ∧ 0 ≤ S ∧ 0 ≤ T ∧ 0 ≤ V ∧
      |A - (f : ℝ) * (np : ℝ)| ≤ (f : ℝ) * (np : ℝ) * (1 / 2 ^ 53) + 1 / 2 ^ 1075 ∧
      |S - Real.sqrt A| ≤ Real.sqrt A * (1 / 2 ^ 53) ∧
      |T - 5 * S| ≤ 5 * S * (1 / 2 ^ 53) + 1 / 2 ^ 1075 ∧
      |V - (A + T)| ≤ (A + T) * (1 / 2 ^ 53) + 1 / 2 ^ 1075 ∧
      (localCheckFails64 f np nbuf ↔
        ((2 : ℝ) ^ 1024 ≤ A ∨ (2 : ℝ) ^ 1024 ≤ T ∨ (2 : ℝ) ^ 1024 ≤ V ∨ (nbuf : ℝ) < V)) := by
  obtain ⟨a, s, t, v, ha, hs, ht, hv, ha0, hs0, ht0, hv0, hiff⟩ := line43_chain f np nbuf hx
  refine ⟨(a : ℝ), (s : ℝ), (t : ℝ), (v : ℝ), by exact_mod_cast ha0, by exact_mod_cast hs0,
    by exact_mod_cast ht0, by exact_mod_cast hv0, ?_, ?_, ?_, ?_, ?_⟩
  · have h := roundRaw_rel_error (f * (np : ℚ))
    rw [← ha, abs_of_nonneg hx] at h
    have h' := (Rat.cast_le (K := ℝ)).mpr h
    push_cast at h'
    exact h'
  · by_cases h0 : a = 0
    · rw [if_pos h0] at hs
      rw [hs, h0]
      simp
    · rw [if_neg h0] at hs
      rw [hs]
      exact (sqrtRound_rel_error a (lt_of_le_of_ne ha0 (Ne.symm h0))).2
  · have h := roundRaw_rel_error (5 * s)
    rw [← ht, abs_of_nonneg (by linarith : (0 : ℚ) ≤ 5 * s)] at h
    have h' := (Rat.cast_le (K := ℝ)).mpr h
    push_cast at h'
    exact h'
  · have h := roundRaw_rel_error (a + t)
    rw [← hv, abs_of_nonneg (by linarith : (0 : ℚ) ≤ a + t)] at h
    have h' := (Rat.cast_le (K := ℝ)).mpr h
    push_cast at h'
    exact h'
  · rw [hiff]
    have e1 : ((2 : ℚ) ^ 1024 ≤ a) ↔ ((2 : ℝ) ^ 1024 ≤ (a : ℝ)) := by
      rw [← Rat.cast_le (K := ℝ)]
      push_cast
      rfl
    have e2 : ((2 : ℚ) ^ 1024 ≤ t) ↔ ((2 : ℝ) ^ 1024 ≤ (t : ℝ)) := by
      rw [← Rat.cast_le (K := ℝ)]
      push_cast
      rfl
    have e3 : ((2 : ℚ) ^ 1024 ≤ v) ↔ ((2 : ℝ) ^ 1024 ≤ (v : ℝ)) := by
      rw [← Rat.cast_le (K := ℝ)]
      push_cast
      rfl
    have e4 : ((nbuf : ℚ) < v) ↔ ((nbuf : ℝ) < (v : ℝ)) := by
      rw [← Rat.cast_lt (K := ℝ)]
      push_cast
      rfl
    rw [e1, e2, e3, e4]

/-- One unit above the capacity in exact arithmetic, the computed test fires. -/
theorem localCheckFails64_of_exact_ge (f : ℚ) (np nbuf : Int) (hx : 0 ≤ f * (np : ℚ))
    (hN : nbuf ≤ 2 ^ 31)
    (h : (nbuf : ℝ) + 1 ≤ (f : ℝ) * (np : ℝ) + 5 * Real.sqrt ((f : ℝ) * (np : ℝ))) :
    localCheckFails64 f np nbuf := by
  obtain ⟨A, S, T, V, hA0, hS0, hT0, hV0, hA, hS, hT, hV, hiff⟩ :=
    line43_real_chain f np nbuf hx
  rw [hiff]
  right; right; right
  have hX : (0 : ℝ) ≤ (f : ℝ) * (np : ℝ) := by exact_mod_cast hx
  rcases lt_or_le nbuf 0 with hneg | hpos
  · have : (nbuf : ℝ) < 0 := by exact_mod_cast hneg
    linarith
  · have hN0 : (0 : ℝ) ≤ (nbuf : ℝ) := by exact_mod_cast hpos
    have hNr : (nbuf : ℝ) ≤ 2 ^ 31 := by exact_mod_cast hN
    rw [abs_le] at hA hS hT hV
    exact rounded_gt_of_exact_ge _ A S T V _ hX hT0 (by linarith [hA.1]) (by linarith [hA.2])
      (by linarith [hS.1]) (by linarith [hS.2]) (by linarith [hT.1]) (by linarith [hT.2])
      (by linarith [hV.1]) h hN0 hNr

/-- One unit below the capacity in exact arithmetic, the computed test does not
fire. -/
theorem not_localCheckFails64_of_exact_le (f : ℚ) (np nbuf : Int) (hx : 0 ≤ f * (np : ℚ))
    (hN : nbuf ≤ 2 ^ 31)
    (h : (f : ℝ) * (np : ℝ) + 5 * Real.sqrt ((f : ℝ) * (np : ℝ)) ≤ (nbuf : ℝ) - 1) :
    ¬ localCheckFails64 f np nbuf := by
  obtain ⟨A, S, T, V, hA0, hS0, hT0, hV0, hA, hS, hT, hV, hiff⟩ :=
    line43_real_chain f np nbuf hx
  rw [hiff]
  have hX : (0 : ℝ) ≤ (f : ℝ) * (np : ℝ) := by exact_mod_cast hx
  have hNr : (nbuf : ℝ) ≤ 2 ^ 31 := by exact_mod_cast hN
  rw [abs_le] at hA hS hT hV
  obtain ⟨h1, h2, h3⟩ := rounded_le_of_exact_le _ A S T V _ hX (by linarith [hA.2])
    (by linarith [hS.2]) (by linarith [hT.2]) (by linarith [hV.2]) h hNr
  have hbig : (2 : ℝ) ^ 32 < 2 ^ 1024 :=
    pow_lt_pow_right₀ (by norm_num) (by norm_num)
  have hbig' : (2 : ℝ) ^ 31 < 2 ^ 32 :=
    pow_lt_pow_right₀ (by norm_num) (by norm_num)
  rintro (h | h | h | h)
  · linarith
  · linarith
  · linarith
  · linarith

/-- The test of line 43 when no operation overflows: the comparison of the last
rounded value with `nbuf`. -/
theorem localCheckFails64_eval (f : ℚ) (np nbuf : Int) (a s t v : ℚ)
    (h1 : round64 (f * (np : ℚ)) = F64.fin a) (h2 : sqrt64 (F64.fin a) = F64.fin s)
    (h3 : round64 (5 * s) = F64.fin t) (h4 : round64 (a + t) = F64.fin v) :
    localCheckFails64 f np nbuf ↔ (nbuf : ℚ) < v := by
  have hmul : mul64 (F64.fin f) (ofInt np) = round64 (f * (np : ℚ)) := rfl
  have hmul5 : mul64 (ofInt 5) (F64.fin s) = round64 (5 * s) := by
    show round64 (((5 : Int) : ℚ) * s) = round64 (5 * s)
    norm_num
  have hadd : add64 (F64.fin a) (F64.fin t) = round64 (a + t) := rfl
  unfold localCheckFails64
  rw [hmul, h1, h2, hmul5, h3, hadd, h4]
  simp only [gt64, ofInt, decide_eq_true_eq]

/-- Where the product is the square of an integer `k` and `k^2 + 5k` is below
`2^53`, every operation of line 43 is exact. -/
theorem localCheckFails64_square (f : ℚ) (np nbuf : Int) (k : ℕ) (hk : f * (np : ℚ) = (k : ℚ) ^ 2)
    (hb : k ^ 2 + 5 * k < 2 ^ 53) :
    localCheckFails64 f np nbuf ↔ (nbuf : ℚ) < (k : ℚ) ^ 2 + 5 * (k : ℚ) := by
  have hk53 : k < 2 ^ 53 := by nlinarith
  have hk2 : k ^ 2 < 2 ^ 53 := by omega
  have h5k : 5 * k < 2 ^ 53 := by omega
  have r1 : round64 (f * (np : ℚ)) = F64.fin ((k : ℚ) ^ 2) := by
    rw [hk]
    have := round64_int ((k ^ 2 : ℕ) : Int) (by
      rw [abs_of_nonneg (by positivity)]
      exact_mod_cast hk2)
    push_cast at this
    exact this
  have r2 : sqrt64 (F64.fin ((k : ℚ) ^ 2)) = F64.fin (k : ℚ) := by
    rcases Nat.eq_zero_or_pos k with h0 | hpos
    · subst h0
      simp [sqrt64]
    · have hpos' : (0 : ℚ) < (k : ℚ) ^ 2 := by positivity
      show (if (k : ℚ) ^ 2 < 0 then F64.nan else if (k : ℚ) ^ 2 = 0 then F64.fin 0
        else F64.fin (sqrtRound ((k : ℚ) ^ 2))) = F64.fin (k : ℚ)
      rw [if_neg (not_lt.mpr hpos'.le), if_neg hpos'.ne', sqrtRound_sq k hpos hk53]
  have r3 : round64 (5 * (k : ℚ)) = F64.fin (5 * (k : ℚ)) := by
    have := round64_int ((5 * k : ℕ) : Int) (by
      rw [abs_of_nonneg (by positivity)]
      exact_mod_cast h5k)
    push_cast at this
    exact this
  have r4 : round64 ((k : ℚ) ^ 2 + 5 * (k : ℚ)) = F64.fin ((k : ℚ) ^ 2 + 5 * (k : ℚ)) := by
    have := round64_int ((k ^ 2 + 5 * k : ℕ) : Int) (by
      rw [abs_of_nonneg (by positivity)]
      exact_mod_cast hb)
    push_cast at this
    exact this
  exact localCheckFails64_eval f np nbuf _ _ _ _ r1 r2 r3 r4

/-- A test in exact rational arithmetic that excludes the abort of line 43. -/
theorem not_localCheckFails64_of_test (f : ℚ) (np nbuf : Int) (hx : 0 ≤ f * (np : ℚ))
    (hN : nbuf ≤ 2 ^ 31) (h : ¬ localCheckTest f np (nbuf - 1)) :
    ¬ localCheckFails64 f np nbuf := by
  apply not_localCheckFails64_of_exact_le f np nbuf hx hN
  have h' := (localCheckFails_iff_test f np (nbuf - 1)).not.mpr h
  unfold localCheckFails at h'
  have hX : (0 : ℝ) ≤ (f : ℝ) * (np : ℝ) := by exact_mod_cast hx
  have h2 : ¬ ((f : ℝ) * (np : ℝ) + 5 * Real.sqrt ((f : ℝ) * (np : ℝ))
      > ((nbuf - 1 : Int) : ℝ)) := fun hc => h' ⟨hX, hc⟩
  have h3 := not_lt.mp h2
  push_cast at h3
  exact h3

theorem nbufOf_lt (r mem_size : Nat) : nbufOf r mem_size < 2 ^ 31 := by
  unfold nbufOf toInt32
  omega

/-! ### Two factors at the boundary of the local test -/

theorem round64_tenth_times_1000 : round64 (double_0_1 * ((1000 : Int) : ℚ)) = F64.fin 100 := by
  have h := round64_eq_of_near (double_0_1 * ((1000 : Int) : ℚ)) 6 7036874417766400
    (by rw [abs_of_nonneg (by norm_num [double_0_1])]; norm_num [double_0_1])
    (by rw [abs_of_nonneg (by norm_num [double_0_1])]; norm_num [double_0_1])
    (by norm_num)
    (by rw [abs_lt]; norm_num [double_0_1])
    (by rw [abs_of_nonneg (by norm_num)]; norm_num)
  rw [h]
  norm_num

theorem sqrt64_100 : sqrt64 (F64.fin 100) = F64.fin 10 := by
  have h := sqrtRound_sq 10 (by norm_num) (by norm_num)
  show (if (100 : ℚ) < 0 then F64.nan else if (100 : ℚ) = 0 then F64.fin 0
    else F64.fin (sqrtRound 100)) = F64.fin 10
  rw [if_neg (by norm_num), if_neg (by norm_num)]
  have e : (100 : ℚ) = ((10 : ℕ) : ℚ) ^ 2 := by norm_num
  rw [e, h]
  norm_num


theorem tenth_check_passes : ¬ localCheckFails64 double_0_1 1000 150 := by
  have r3 : round64 (5 * 10) = F64.fin 50 := by
    have := round64_int 50 (by norm_num)
    norm_num at this ⊢
    exact this
  have r4 : round64 (100 + 50) = F64.fin 150 := by
    have := round64_int 150 (by norm_num)
    norm_num at this ⊢
    exact this
  rw [localCheckFails64_eval double_0_1 1000 150 100 10 50 150 round64_tenth_times_1000
    sqrt64_100 r3 r4]
  norm_num

theorem factor_0_2986_check_fails : localCheckFails64 double_0_2986 1000 385 := by
  have r1 : round64 (double_0_2986 * ((1000 : Int) : ℚ))
      = F64.fin (5253023195295771 / 17592186044416) := by
    have h := round64_eq_of_near (double_0_2986 * ((1000 : Int) : ℚ)) 8 5253023195295771
      (by rw [abs_of_nonneg (by norm_num [double_0_2986])]; norm_num [double_0_2986])
      (by rw [abs_of_nonneg (by norm_num [double_0_2986])]; norm_num [double_0_2986])
      (by norm_num)
      (by rw [abs_lt]; norm_num [double_0_2986])
      (by rw [abs_of_nonneg (by norm_num)]; norm_num)
    rw [h]
    norm_num
  have r2 : sqrt64 (F64.fin (5253023195295771 / 17592186044416))
      = F64.fin (4863898981774047 / 281474976710656) := by
    have h := sqrtRound_eq_of_near (5253023195295771 / 17592186044416) 4 4863898981774047
      (by norm_num) (by norm_num) (by norm_num) (by norm_num) (by norm_num)
    show (if (5253023195295771 / 17592186044416 : ℚ) < 0 then F64.nan
      else if (5253023195295771 / 17592186044416 : ℚ) = 0 then F64.fin 0
      else F64.fin (sqrtRound (5253023195295771 / 17592186044416)))
        = F64.fin (4863898981774047 / 281474976710656)
    rw [if_neg (by norm_num), if_neg (by norm_num), h]
    norm_num
  have r3 : round64 (5 * (4863898981774047 / 281474976710656))
      = F64.fin (6079873727217559 / 70368744177664) := by
    have h := round64_eq_of_near (5 * (4863898981774047 / 281474976710656)) 6 6079873727217559
      (by rw [abs_of_nonneg (by norm_num)]; norm_num)
      (by rw [abs_of_nonneg (by norm_num)]; norm_num)
      (by norm_num)
      (by rw [abs_lt]; norm_num)
      (by rw [abs_of_nonneg (by norm_num)]; norm_num)
    rw [h]
    norm_num
  have r4 : round64 (5253023195295771 / 17592186044416 + 6079873727217559 / 70368744177664)
      = F64.fin (6772991627100161 / 17592186044416) := by
    have h := round64_eq_of_near
      (5253023195295771 / 17592186044416 + 6079873727217559 / 70368744177664) 8
      6772991627100161
      (by rw [abs_of_nonneg (by norm_num)]; norm_num)
      (by rw [abs_of_nonneg (by norm_num)]; norm_num)
      (by norm_num)
      (by rw [abs_lt]; norm_num)
      (by rw [abs_of_nonneg (by norm_num)]; norm_num)
    rw [h]
    norm_num
  rw [localCheckFails64_eval double_0_2986 1000 385 _ _ _ _ r1 r2 r3 r4]
  norm_num

/-! ### The paths through `write_random_sabsample` -/

theorem abort_9300_iff {P M : Type} (r : Nat) (f : ℚ) (u : Nat → ℚ) (comm : Comm P)
    (fn : String) (snapshot : Snapshot P M) (mem : Nat → P) (mem_size : Nat) :
    write_random_sabsample r f u comm fn snapshot mem mem_size
        = Except.error (Abort.msg_abort 9300)
      ↔ localCheckFails64 f snapshot.np_local (nbufOf r mem_size) := by
  unfold write_random_sabsample
  by_cases hl : localCheckFails64 f snapshot.np_local (nbufOf r mem_size)
  · simp [hl]
  · simp only [hl, if_false, iff_false]
    split
    · split
      · simp
      · split <;> simp
    · simp

/-- A call that returns on the coordinator passed both capacity tests, its gather
succeeded, and what it leaves behind is built from the gather's result. -/
theorem ok_on_coordinator {P M : Type} (r : Nat) (f : ℚ) (u : Nat → ℚ) (comm : Comm P)
    (fn : String) (snapshot : Snapshot P M) (mem : Nat → P) (mem_size : Nat)
    (h0 : comm.this_node = 0) (o : Outcome P M) :
    write_random_sabsample r f u comm fn snapshot mem mem_size = Except.ok o ↔
      ¬ localCheckFails64 f snapshot.np_local (nbufOf r mem_size) ∧
      ¬ globalCheckFails (nbufOf r mem_size) (localFilter f u snapshot mem).nsub
          (gatheredCounts r comm (localFilter f u snapshot mem).out
            (localFilter f u snapshot mem).nsub).ns ∧
      ∃ m, MPI_Gatherv r (localFilter f u snapshot mem).nsub comm.nnode
            (samples comm (localFilter f u snapshot mem).out (localFilter f u snapshot mem).nsub)
            (gatheredCounts r comm (localFilter f u snapshot mem).out
              (localFilter f u snapshot mem).nsub).nsub_recv
            (gatheredCounts r comm (localFilter f u snapshot mem).out
              (localFilter f u snapshot mem).nsub).disp
            (localFilter f u snapshot mem).out = some m ∧
        o = { Random_generator := (localFilter f u snapshot mem).Random_generator
              mem := m
              written := some (fn, assemble snapshot
                (fun j => m ((localFilter f u snapshot mem).nsub + j))
                (gatheredCounts r comm (localFilter f u snapshot mem).out
                  (localFilter f u snapshot mem).nsub).ns) } := by
  unfold write_random_sabsample
  by_cases hl : localCheckFails64 f snapshot.np_local (nbufOf r mem_size)
  · simp [hl]
  · simp only [hl, if_false, not_false_eq_true, true_and, h0, if_true]
    split
    · simp [*]
    · rename_i hg
      simp only [hg, not_false_eq_true, true_and]
      split
      · rename_i hm
        simp [hm]
      · rename_i m hm
        simp only [hm, Option.some.injEq, Except.ok.injEq]
        constructor
        · intro h
          exact ⟨m, rfl, h.symm⟩
        · rintro ⟨m', rfl, h⟩
          exact h.symm

/-- The size of the local sample: the number of draws below the factor. -/
theorem localFilter_nsub {P M : Type} (f : ℚ) (u : Nat → ℚ) (snapshot : Snapshot P M)
    (mem : Nat → P) :
    (localFilter f u snapshot mem).nsub
      = ((List.range snapshot.np_local.toNat).filter fun i => decide (u i < f)).length := by
  unfold localFilter
  rw [filterLoop_toNat]
  exact (filterLoop_invariant f snapshot.p u mem snapshot.np_local.toNat).2.1

/-- The local sample: the records whose draw is below the factor. -/
theorem localFilter_out {P M : Type} (f : ℚ) (u : Nat → ℚ) (snapshot : Snapshot P M)
    (mem : Nat → P) :
    readArr (localFilter f u snapshot mem).out 0 (localFilter f u snapshot mem).nsub
      = ((List.range snapshot.np_local.toNat).filter fun i => decide (u i < f)).map
          snapshot.p := by
  unfold localFilter
  rw [filterLoop_toNat]
  exact (filterLoop_invariant f snapshot.p u mem snapshot.np_local.toNat).2.2.1

/-- On the coordinator, when neither capacity test fails and the total byte
length fits an `int`, the call returns, and the records from `nsub` on are the
samples of all ranks one after the other. -/
theorem coordinator_run {P M : Type} (r : Nat) (hr : 0 < r) (f : ℚ) (u : Nat → ℚ)
    (comm : Comm P) (fn : String) (snapshot : Snapshot P M) (mem : Nat → P) (mem_size : Nat)
    (h0 : comm.this_node = 0)
    (hloc : ¬ localCheckFails64 f snapshot.np_local (nbufOf r mem_size))
    (hglob : ¬ globalCheckFails (nbufOf r mem_size) (localFilter f u snapshot mem).nsub
      (gatheredCounts r comm (localFilter f u snapshot mem).out
        (localFilter f u snapshot mem).nsub).ns)
    (hfit : (r : Int) * ((∑ i ∈ Finset.range comm.nnode,
        (samples comm (localFilter f u snapshot mem).out
          (localFilter f u snapshot mem).nsub i).length : Nat) : Int) < 2 ^ 31) :
    ∃ o, write_random_sabsample r f u comm fn snapshot mem mem_size = Except.ok o ∧
      o.written = some (fn, assemble snapshot
        (fun j => o.mem ((localFilter f u snapshot mem).nsub + j))
        ((∑ i ∈ Finset.range comm.nnode,
          (samples comm (localFilter f u snapshot mem).out
            (localFilter f u snapshot mem).nsub i).length : Nat) : Int)) ∧
      readArr o.mem (localFilter f u snapshot mem).nsub
          (∑ i ∈ Finset.range comm.nnode,
            (samples comm (localFilter f u snapshot mem).out
              (localFilter f u snapshot mem).nsub i).length)
        = ((List.range comm.nnode).map
            (samples comm (localFilter f u snapshot mem).out
              (localFilter f u snapshot mem).nsub)).flatten := by
  obtain ⟨hns, hcnt, hdsp⟩ := gatheredCounts_prefix_sums r hr comm
    (localFilter f u snapshot mem).out (localFilter f u snapshot mem).nsub hfit
  obtain ⟨m, hm, hcat, -, -⟩ := gatherv_invariant r (localFilter f u snapshot mem).nsub
    comm.nnode hr (samples comm (localFilter f u snapshot mem).out
      (localFilter f u snapshot mem).nsub) _ _ (localFilter f u snapshot mem).out hcnt hdsp
    comm.nnode (le_refl _)
  refine ⟨_, (ok_on_coordinator r f u comm fn snapshot mem mem_size h0 _).2
    ⟨hloc, hglob, m, hm, rfl⟩, ?_, hcat⟩
  simp only [hns]

theorem abort_assert_iff {P M : Type} (r : Nat) (f : ℚ) (u : Nat → ℚ) (comm : Comm P)
    (fn : String) (snapshot : Snapshot P M) (mem : Nat → P) (mem_size : Nat) :
    write_random_sabsample r f u comm fn snapshot mem mem_size
        = Except.error Abort.assert_failed
      ↔ ¬ localCheckFails64 f snapshot.np_local (nbufOf r mem_size) ∧ comm.this_node = 0 ∧
        ¬ globalCheckFails (nbufOf r mem_size) (localFilter f u snapshot mem).nsub
          (gatheredCounts r comm (localFilter f u snapshot mem).out
            (localFilter f u snapshot mem).nsub).ns ∧
        MPI_Gatherv r (localFilter f u snapshot mem).nsub comm.nnode
            (samples comm (localFilter f u snapshot mem).out (localFilter f u snapshot mem).nsub)
            (gatheredCounts r comm (localFilter f u snapshot mem).out
              (localFilter f u snapshot mem).nsub).nsub_recv
            (gatheredCounts r comm (localFilter f u snapshot mem).out
              (localFilter f u snapshot mem).nsub).disp
            (localFilter f u snapshot mem).out = none := by
  unfold write_random_sabsample
  by_cases hl : localCheckFails64 f snapshot.np_local (nbufOf r mem_size)
  · simp [hl]
  · simp only [hl, if_false, not_false_eq_true, true_and]
    by_cases h0 : comm.this_node = 0
    · simp only [h0, if_true, true_and]
      split
      · simp [*]
      · rename_i hg
        simp only [hg, not_false_eq_true, true_and]
        split
        · rename_i hm
          simp [hm]
        · rename_i m hm
          simp [hm]
    · simp [h0]

theorem gathervStep_refused {P : Type} (r buf1 : Nat) (sample : Nat → List P)
    (recvcounts displs : Nat → Int) (acc : Option (Nat → P)) (i : Nat)
    (h : recvcounts i ≠ (r : Int) * ((sample i).length : Int)) :
    gathervStep r buf1 sample recvcounts displs acc i = none := by
  cases acc with
  | none => rfl
  | some m =>
    show (if _ then _ else none) = none
    rw [if_neg]
    exact fun hc => h hc.1

/-! ### A job of 2 GiB -/

theorem bigSample_length : bigSample.length = 2 ^ 26 :=
  List.length_replicate _ _

theorem big_samples (out : Nat → Nat) (i : Nat) :
    samples bigComm out 0 i = if i = 0 then [] else if i = 1 then bigSample else [8] := by
  unfold samples bigComm
  by_cases h0 : i = 0
  · subst h0
    rfl
  · have : ¬ ((i : Int) = 0) := by omega
    simp only [this, if_false, h0]

theorem big_lengths (out : Nat → Nat) (i : Nat) :
    ((samples bigComm out 0 i).length : Int)
      = if i = 0 then 0 else if i = 1 then 2 ^ 26 else 1 := by
  rw [big_samples]
  by_cases h0 : i = 0
  · simp [h0]
  · by_cases h1 : i = 1
    · subst h1
      simp only [if_true, if_false, bigSample_length, Nat.one_ne_zero]
      norm_num
    · simp [h0, h1]

/-! ### A job whose record count leaves the range of `int` -/

theorem demo_nbuf : nbufOf 32 3200 = 100 := by decide

theorem demo_local_ok : ¬ localCheckFails64 (1 / 2) demoSnapshot.np_local (nbufOf 32 3200) := by
  rw [demo_nbuf]
  apply not_localCheckFails64_of_test
  · norm_num [demoSnapshot]
  · norm_num
  · norm_num [localCheckTest, demoSnapshot]

theorem demo_nsub : (localFilter (1 / 2) demoDraws demoSnapshot fun _ => 0).nsub = 2 := by
  rw [localFilter_nsub]
  norm_num [demoSnapshot, demoDraws, List.range_succ, List.filter]

theorem demo_out : readArr (localFilter (1 / 2) demoDraws demoSnapshot fun _ => 0).out 0 2
    = [10, 12] := by
  have h := localFilter_out (1 / 2) demoDraws demoSnapshot fun _ => 0
  rw [demo_nsub] at h
  rw [h]
  norm_num [demoSnapshot, demoDraws, List.range_succ, List.filter]

theorem demo_samples (i : Nat) :
    samples demoComm (localFilter (1 / 2) demoDraws demoSnapshot fun _ => 0).out 2 i
      = if i = 0 then [10, 12] else if i = 1 then [7, 8] else [] := by
  unfold samples
  rw [demo_out]
  simp [demoComm]

theorem demo_total :
    ∑ i ∈ Finset.range demoComm.nnode,
      (samples demoComm (localFilter (1 / 2) demoDraws demoSnapshot fun _ => 0).out
        (localFilter (1 / 2) demoDraws demoSnapshot fun _ => 0).nsub i).length = 4 := by
  rw [demo_nsub]
  simp only [demo_samples]
  decide

theorem demo_fit :
    ((32 : Nat) : Int) * ((∑ i ∈ Finset.range demoComm.nnode,
      (samples demoComm (localFilter (1 / 2) demoDraws demoSnapshot fun _ => 0).out
        (localFilter (1 / 2) demoDraws demoSnapshot fun _ => 0).nsub i).length : Nat) : Int)
      < 2 ^ 31 := by
  rw [demo_total]
  decide

theorem demo_ns :
    (gatheredCounts 32 demoComm (localFilter (1 / 2) demoDraws demoSnapshot fun _ => 0).out
      (localFilter (1 / 2) demoDraws demoSnapshot fun _ => 0).nsub).ns = 4 := by
  have h := (gatheredCounts_prefix_sums 32 (by decide) demoComm _ _ demo_fit).1
  rw [demo_total] at h
  exact h

theorem demo_global_ok :
    ¬ globalCheckFails (nbufOf 32 3200)
      (localFilter (1 / 2) demoDraws demoSnapshot fun _ => 0).nsub
      (gatheredCounts 32 demoComm (localFilter (1 / 2) demoDraws demoSnapshot fun _ => 0).out
        (localFilter (1 / 2) demoDraws demoSnapshot fun _ => 0).nsub).ns := by
  rw [demo_ns, demo_nsub, demo_nbuf]
  decide

/-- The small job returns on the coordinator with `[10, 12, 7, 8]` behind the
local sample. -/
theorem demo_run :
    ∃ o, write_random_sabsample 32 (1 / 2) demoDraws demoComm "subsample.b" demoSnapshot
          (fun _ => 0) 3200 = Except.ok o ∧
      o.written = some ("subsample.b", assemble demoSnapshot (fun j => o.mem (2 + j)) 4) ∧
      readArr o.mem 2 4 = [10, 12, 7, 8] := by
  obtain ⟨o, ho, hw, hcat⟩ := coordinator_run 32 (by decide) (1 / 2) demoDraws demoComm
    "subsample.b" demoSnapshot (fun _ => 0) 3200 rfl demo_local_ok demo_global_ok demo_fit
  rw [demo_total] at hw hcat
  rw [demo_nsub] at hw hcat
  refine ⟨o, ho, hw, ?_⟩
  rw [hcat, funext demo_samples]
  decide

/-- The number of indices below `n` that pass a test is at most `n`; it is 0 when
none passes and `n` when all do. -/
theorem count_filter_range (q : Nat → Bool) (n : Nat) :
    ((List.range n).filter q).length ≤ n ∧
    ((∀ i, i < n → q i = false) → ((List.range n).filter q).length = 0) ∧
    ((∀ i, i < n → q i = true) → ((List.range n).filter q).length = n) := by
  refine ⟨?_, ?_, ?_⟩
  · have h := List.length_filter_le q (List.range n)
    rwa [List.length_range] at h
  · intro h
    rw [List.length_eq_zero, List.filter_eq_nil_iff]
    intro i hi
    simp [h i (List.mem_range.mp hi)]
  · intro h
    have : (List.range n).filter q = List.range n := by
      rw [List.filter_eq_self]
      intro i hi
      exact h i (List.mem_range.mp hi)
    rw [this, List.length_range]

/-! ### The sample size as a random variable -/

open MeasureTheory ProbabilityTheory

theorem count_filter_eq_sum (q : Nat → Prop) [DecidablePred q] (n : Nat) :
    (((List.range n).filter fun i => decide (q i)).length : ℝ)
      = ∑ i ∈ Finset.range n, if q i then (1 : ℝ) else 0 := by
  induction n with
  | zero => simp
  | succ n ih =>
    rw [List.range_succ, List.filter_append, List.length_append, Nat.cast_add, ih,
      Finset.sum_range_succ]
    by_cases h : q n <;> simp [h]

/-- The sample size is the sum, over the records, of the indicator of the event
that the record's draw is below the factor. -/
theorem nsub_eq_sum_indicators {Ω P : Type} (f : ℝ) (p : Nat → P) (mem : Nat → P)
    (U : Nat → Ω → ℝ) (n : Nat) :
    (fun ω => ((filterLoop f p (n : Int) ⟨fun i => U i ω, mem, 0⟩).nsub : ℝ))
      = ∑ i ∈ Finset.range n, (Set.preimage (U i) (Set.Iio f)).indicator fun _ => (1 : ℝ) := by
  funext ω
  rw [(filterLoop_invariant f p (fun i => U i ω) mem n).2.1, count_filter_eq_sum,
    Finset.sum_apply]
  apply Finset.sum_congr rfl
  intro i _
  by_cases h : U i ω < f
  · simp [Set.indicator, h]
  · simp [Set.indicator, h]

theorem uniform_below {Ω : Type} [MeasurableSpace Ω] (μ : Measure Ω) (f : ℝ) (hf0 : 0 ≤ f)
    (hf1 : f ≤ 1) (X : Ω → ℝ) (hX : Measurable X)
    (hlaw : μ.map X = volume.restrict (Set.Ico 0 1)) :
    (μ (Set.preimage X (Set.Iio f))).toReal = f := by
  rw [← Measure.map_apply hX measurableSet_Iio, hlaw, Measure.restrict_apply measurableSet_Iio]
  have hset : Set.Iio f ∩ Set.Ico 0 1 = Set.Ico 0 f := by
    ext x
    simp only [Set.mem_inter_iff, Set.mem_Iio, Set.mem_Ico]
    constructor
    · rintro ⟨h1, h2, -⟩
      exact ⟨h2, h1⟩
    · rintro ⟨h1, h2⟩
      exact ⟨h2, h1, lt_of_lt_of_le h2 hf1⟩
  rw [hset, Real.volume_Ico, sub_zero, ENNReal.toReal_ofReal hf0]

theorem indicator_moments {Ω : Type} [MeasurableSpace Ω] (μ : Measure Ω) [IsProbabilityMeasure μ]
    (f : ℝ) (hf0 : 0 ≤ f) (hf1 : f ≤ 1) (X : Ω → ℝ) (hX : Measurable X)
    (hlaw : μ.map X = volume.restrict (Set.Ico 0 1)) :
    Memℒp ((Set.preimage X (Set.Iio f)).indicator fun _ => (1 : ℝ)) 2 μ ∧
    ∫ ω, (Set.preimage X (Set.Iio f)).indicator (fun _ => (1 : ℝ)) ω ∂μ = f ∧
    variance ((Set.preimage X (Set.Iio f)).indicator fun _ => (1 : ℝ)) μ = f * (1 - f) := by
  have hA : MeasurableSet (Set.preimage X (Set.Iio f)) := hX measurableSet_Iio
  have hmem : Memℒp ((Set.preimage X (Set.Iio f)).indicator fun _ => (1 : ℝ)) 2 μ :=
    memℒp_indicator_const 2 hA 1 (Or.inr (measure_ne_top μ _))
  have hint : ∫ ω, (Set.preimage X (Set.Iio f)).indicator (fun _ => (1 : ℝ)) ω ∂μ = f := by
    have := integral_indicator_one (μ := μ) hA
    rw [uniform_below μ f hf0 hf1 X hX hlaw] at this
    exact this
  refine ⟨hmem, hint, ?_⟩
  rw [variance_def' hmem]
  have hsq : (((Set.preimage X (Set.Iio f)).indicator fun _ => (1 : ℝ)) ^ 2)
      = (Set.preimage X (Set.Iio f)).indicator fun _ => (1 : ℝ) := by
    funext ω
    by_cases h : ω ∈ Set.preimage X (Set.Iio f) <;> simp [Set.indicator, h]
  rw [hsq, hint]
  ring

theorem unitInterval_isProbability :
    IsProbabilityMeasure ((volume : Measure ℝ).restrict (Set.Ico 0 1)) :=
  ⟨by rw [Measure.restrict_apply MeasurableSet.univ, Set.univ_inter, Real.volume_Ico]; simp⟩


/-! ## The claims -/

/-- C1.  The filter loop of `write_random_sabsample`, for every array `p`, count
`np`, factor and stream of draws `u`, started with `nsub = 0`: afterwards the
generator has moved on by exactly `np` draws (draw `i` decided record `i`), the
indices of the records kept are those `i < np` with `u i < factor` in strictly
increasing order, `out[0..nsub)` holds exactly these records in that order,
`nsub` is their number, and the buffer is untouched from `nsub` on. -/
theorem filterLoop_stable_filter {D P : Type} [LT D] [DecidableRel (fun a b : D => a < b)]
    (factor : D) (p : Nat → P) (np : Int) (u : Nat → D) (mem : Nat → P) :
    (filterLoop factor p np ⟨u, mem, 0⟩).Random_generator = (fun k => u (k + np.toNat)) ∧
    List.Sorted (fun a b => a < b)
      ((List.range np.toNat).filter fun i => decide (u i < factor)) ∧
    readArr (filterLoop factor p np ⟨u, mem, 0⟩).out 0
        (filterLoop factor p np ⟨u, mem, 0⟩).nsub
      = ((List.range np.toNat).filter fun i => decide (u i < factor)).map p ∧
    (filterLoop factor p np ⟨u, mem, 0⟩).nsub
      = ((List.range np.toNat).filter fun i => decide (u i < factor)).length ∧
    ∀ a, (filterLoop factor p np ⟨u, mem, 0⟩).nsub ≤ a →
      (filterLoop factor p np ⟨u, mem, 0⟩).out a = mem a := by
  rw [filterLoop_toNat]
  obtain ⟨hg, hn, hr, hm⟩ := filterLoop_invariant factor p u mem np.toNat
  exact ⟨hg, (List.sorted_lt_range np.toNat).filter _, hr, hn, hm⟩

/-- C3.  Offsets on the coordinator: for `k ≥ 1` ranks, record size `r` and
non-negative counts `c 0, …, c (k-1)` whose total byte length `r * Σ c` fits a
signed 32-bit `int`, the loop of lines 71-75 leaves `disp[i] = r * Σ_{j<i} c j`
for every `i < k` (so `disp[i+1] = disp[i]` after a rank with `c i = 0`),
`nsub_recv[i] = r * c i`, and `disp[k-1] + r * c (k-1) = r * ns` is the total
byte length `r * Σ c`. -/
theorem coordinatorCounts_offsets (r k : Nat) (c : Nat → Int) (hk : 1 ≤ k)
    (hc : ∀ i, i < k → 0 ≤ c i)
    (hfit : (r : Int) * ∑ j ∈ Finset.range k, c j < 2 ^ 31) :
    (∀ i, i < k → (coordinatorCounts r k c).disp i = (r : Int) * ∑ j ∈ Finset.range i, c j) ∧
    (∀ i, i + 1 < k → c i = 0 →
      (coordinatorCounts r k c).disp (i + 1) = (coordinatorCounts r k c).disp i) ∧
    (∀ i, i < k → (coordinatorCounts r k c).nsub_recv i = (r : Int) * c i) ∧
    (coordinatorCounts r k c).disp (k - 1) + (r : Int) * c (k - 1)
      = (r : Int) * (coordinatorCounts r k c).ns ∧
    (r : Int) * (coordinatorCounts r k c).ns = (r : Int) * ∑ j ∈ Finset.range k, c j := by
  obtain ⟨hns, hdisp, hrecv, -⟩ := countLoop_prefix_sums r k c hc hfit
  refine ⟨hdisp, ?_, hrecv, ?_, hns k (le_refl k)⟩
  · intro i hi hz
    rw [hdisp (i + 1) hi, hdisp i (by omega), Finset.sum_range_succ, hz, add_zero]
  · rw [hdisp (k - 1) (by omega), hns k (le_refl k), ← mul_add, ← Finset.sum_range_succ]
    congr 3
    omega

/-- C3, at two ranks with counts 3 and 0 and records of 32 bytes. -/
theorem coordinatorCounts_offsets_witness :
    (coordinatorCounts 32 2 fun i => if i = 0 then 3 else 0).disp 1 = 96 ∧
    (coordinatorCounts 32 2 fun i => if i = 0 then 3 else 0).nsub_recv 0 = 96 ∧
    (32 : Int) * (coordinatorCounts 32 2 fun i => if i = 0 then 3 else 0).ns = 96 := by
  have h := coordinatorCounts_offsets 32 2 (fun i => if i = 0 then 3 else 0) (by decide)
    (by intro i _; dsimp only; split <;> decide) (by decide)
  have h3 := h.2.2.2.2
  simp only [Nat.cast_ofNat] at h3
  refine ⟨?_, ?_, ?_⟩
  · rw [h.1 1 (by decide)]
    decide
  · rw [h.2.2.1 0 (by decide)]
    decide
  · rw [h3]
    decide

/-- C10.  `subsample_init` seeds the generator with `(2*seed + 100*rank) mod 2^32`,
which depends on the seed and the rank only (not on the factor or the previous
state), and for one seed two distinct ranks in `[0, 2^24)` get distinct values. -/
theorem subsample_init_seed_per_rank (g g' : Globals) (f f' : ℚ) (seed : Nat) (r1 r2 : Int)
    (h1 : 0 ≤ r1 ∧ r1 < 2 ^ 24) (h2 : 0 ≤ r2 ∧ r2 < 2 ^ 24) (hne : r1 ≠ r2) :
    (subsample_init g f seed r1).Random_generator
      = some ((2 * (seed : Int) + 100 * r1) % 2 ^ 32) ∧
    (subsample_init g f seed r1).Random_generator
      = (subsample_init g' f' seed r1).Random_generator ∧
    (subsample_init g f seed r1).Random_generator
      ≠ (subsample_init g f seed r2).Random_generator := by
  obtain ⟨h1a, h1b⟩ := h1
  obtain ⟨h2a, h2b⟩ := h2
  refine ⟨?_, rfl, ?_⟩
  · simp only [subsample_init, rng_seed, toUInt32, toInt32, Option.some.injEq]
    omega
  · simp only [subsample_init, rng_seed, toUInt32, toInt32, ne_eq, Option.some.injEq]
    omega

/-- C10, for seed 42 and ranks 0 and 1: the seed values are 84 and 184. -/
theorem subsample_init_seed_per_rank_witness :
    (subsample_init Globals.initial (1 / 10) 42 0).Random_generator = some 84 ∧
    (subsample_init Globals.initial (1 / 10) 42 0).Random_generator
      ≠ (subsample_init Globals.initial (1 / 10) 42 1).Random_generator := by
  have h := subsample_init_seed_per_rank Globals.initial Globals.initial (1 / 10) (1 / 10) 42 0 1
    (by decide) (by decide) (by decide)
  exact ⟨h.1.trans (by decide), h.2.2⟩

/-- C2 fails as stated: with records of 32 bytes, an empty sample on the
coordinator, `2^26` records on rank 1 and one record on rank 2, the total `ns` is
the sum `2^26 + 1`, but the byte count of rank 1 and the byte offset of rank 2,
both `2^31`, are stored in an `int` as `-2^31`; the gather is refused, and the
call, with room for `2^27` records, ends in the failed assertion of line 90
instead of handing a consolidated buffer to the writer. -/
theorem gather_breaks_at_two_gib :
    (gatheredCounts 32 bigComm (fun _ => 0) 0).ns = 2 ^ 26 + 1 ∧
    (gatheredCounts 32 bigComm (fun _ => 0) 0).nsub_recv 1 = -(2 ^ 31) ∧
    (gatheredCounts 32 bigComm (fun _ => 0) 0).disp 2 = -(2 ^ 31) ∧
    MPI_Gatherv 32 0 bigComm.nnode (samples bigComm (fun _ => 0) 0)
      (gatheredCounts 32 bigComm (fun _ => 0) 0).nsub_recv
      (gatheredCounts 32 bigComm (fun _ => 0) 0).disp (fun _ => 0) = none ∧
    write_random_sabsample 32 (1 / 2) demoDraws bigComm "subsample.b" emptySnapshot
      (fun _ => 0) (2 ^ 32) = Except.error Abort.assert_failed := by
  have hc : (fun i => ((samples bigComm (fun _ => 0) 0 i).length : Int))
      = fun i => if i = 0 then 0 else if i = 1 then 2 ^ 26 else 1 :=
    funext (big_lengths fun _ => 0)
  have hsum3 : ∑ j ∈ Finset.range 3, (if j = 0 then (0 : Int) else if j = 1 then 2 ^ 26 else 1)
      = 2 ^ 26 + 1 := by decide
  have hsum2 : ∑ j ∈ Finset.range 2, (if j = 0 then (0 : Int) else if j = 1 then 2 ^ 26 else 1)
      = 2 ^ 26 := by decide
  have hnn : ∀ i, i < 3 → (0 : Int) ≤ (if i = 0 then (0 : Int) else if i = 1 then 2 ^ 26 else 1) := by
    intro i _
    split
    · decide
    · split <;> decide
  have hns3 : (gatheredCounts 32 bigComm (fun _ => 0) 0).ns = 2 ^ 26 + 1 := by
    unfold gatheredCounts
    rw [hc, show bigComm.nnode = 3 from rfl,
      countLoop_ns 32 _ 3 hnn (by rw [hsum3]; decide) 3 (le_refl _), hsum3]
  have hns2 : (coordinatorCounts 32 2
      fun i => if i = 0 then (0 : Int) else if i = 1 then 2 ^ 26 else 1).ns = 2 ^ 26 := by
    rw [countLoop_ns 32 _ 3 hnn (by rw [hsum3]; decide) 2 (by decide), hsum2]
  have hrecv : (gatheredCounts 32 bigComm (fun _ => 0) 0).nsub_recv 1 = -(2 ^ 31) := by
    unfold gatheredCounts
    rw [hc, show bigComm.nnode = 3 from rfl, (countLoop_cells 32 _ 3).2.1 1 (by decide)]
    decide
  have hdisp : (gatheredCounts 32 bigComm (fun _ => 0) 0).disp 2 = -(2 ^ 31) := by
    unfold gatheredCounts
    rw [hc, show bigComm.nnode = 3 from rfl, (countLoop_cells 32 _ 3).1 2 (by decide), hns2]
    decide
  have hgather : MPI_Gatherv 32 0 bigComm.nnode (samples bigComm (fun _ => 0) 0)
      (gatheredCounts 32 bigComm (fun _ => 0) 0).nsub_recv
      (gatheredCounts 32 bigComm (fun _ => 0) 0).disp (fun _ => 0) = none := by
    rw [show bigComm.nnode = 2 + 1 from rfl, gatherv_succ, gatherv_succ,
      gathervStep_refused 32 0 _ _ _ _ 1 (by rw [hrecv, big_lengths]; decide)]
    rfl
  have hfilter : localFilter (1 / 2) demoDraws emptySnapshot (fun _ => 0)
      = ⟨demoDraws, fun _ => 0, 0⟩ := rfl
  have hnbuf : nbufOf 32 (2 ^ 32) = 2 ^ 27 := by decide
  refine ⟨hns3, hrecv, hdisp, hgather, ?_⟩
  rw [abort_assert_iff, hfilter]
  refine ⟨?_, rfl, ?_, hgather⟩
  · rw [hnbuf]
    apply not_localCheckFails64_of_test
    · norm_num [emptySnapshot, demoSnapshot]
    · norm_num
    · norm_num [localCheckTest, emptySnapshot, demoSnapshot]
  · show ¬ globalCheckFails (nbufOf 32 (2 ^ 32)) 0 (gatheredCounts 32 bigComm (fun _ => 0) 0).ns
    rw [hns3, hnbuf]
    decide

/-- C2, amended.  Consolidation on the coordinator (rank 0, own sample `out[0..nsub)`,
`buf1 = out + nsub`), for every number of ranks and every tuple of samples whose
total byte length fits an `int`: the total `ns` is the sum of the sample sizes,
the gather succeeds, and afterwards `buf1[0..ns)` is the concatenation of the
samples in rank order, the block of rank `i` standing unbroken at its prefix-sum
position; the coordinator's own sample at the head of the buffer and everything
behind the consolidated records are as before. -/
theorem gather_concatenates_samples {P : Type} (r : Nat) (hr : 0 < r) (comm : Comm P)
    (h0 : comm.this_node = 0) (out : Nat → P) (nsub : Nat)
    (hfit : (r : Int) *
      ((∑ i ∈ Finset.range comm.nnode, (samples comm out nsub i).length : Nat) : Int)
        < 2 ^ 31) :
    (gatheredCounts r comm out nsub).ns
      = ((∑ i ∈ Finset.range comm.nnode, (samples comm out nsub i).length : Nat) : Int) ∧
    samples comm out nsub 0 = readArr out 0 nsub ∧
    ∃ m, MPI_Gatherv r nsub comm.nnode (samples comm out nsub)
          (gatheredCounts r comm out nsub).nsub_recv (gatheredCounts r comm out nsub).disp out
        = some m ∧
      readArr m nsub (∑ i ∈ Finset.range comm.nnode, (samples comm out nsub i).length)
        = ((List.range comm.nnode).map (samples comm out nsub)).flatten ∧
      (∀ i, i < comm.nnode →
        readArr m (nsub + ∑ j ∈ Finset.range i, (samples comm out nsub j).length)
          (samples comm out nsub i).length = samples comm out nsub i) ∧
      readArr m 0 nsub = readArr out 0 nsub ∧
      ∀ a, nsub + ∑ i ∈ Finset.range comm.nnode, (samples comm out nsub i).length ≤ a →
        m a = out a := by
  obtain ⟨hns, hcnt, hdsp⟩ := gatheredCounts_prefix_sums r hr comm out nsub hfit
  obtain ⟨m, hm, hcat, hblk, hout⟩ := gatherv_invariant r nsub comm.nnode hr
    (samples comm out nsub) _ _ out hcnt hdsp comm.nnode (le_refl _)
  refine ⟨hns, ?_, m, hm, hcat, hblk, ?_, fun a ha => hout a (Or.inr ha)⟩
  · simp [samples, h0]
  · apply readArr_congr
    intro j hj
    exact hout _ (Or.inl (by omega))

/-- C2 amended, at two ranks: the coordinator holds `[10, 11]`, rank 1 sends `[7, 8]`,
records of 32 bytes. -/
theorem gather_concatenates_samples_witness :
    ∃ m, MPI_Gatherv 32 2 2 (samples ⟨0, 2, fun i => if i = 1 then [7, 8] else []⟩
          (fun i => 10 + i) 2)
          (gatheredCounts 32 ⟨0, 2, fun i => if i = 1 then [7, 8] else []⟩
            (fun i => 10 + i) 2).nsub_recv
          (gatheredCounts 32 ⟨0, 2, fun i => if i = 1 then [7, 8] else []⟩
            (fun i => 10 + i) 2).disp (fun i => 10 + i) = some m ∧
      readArr m 2 4 = [10, 11, 7, 8] := by
  obtain ⟨-, -, m, hm, hcat, -⟩ := gather_concatenates_samples 32 (by decide)
    (⟨0, 2, fun i => if i = 1 then [7, 8] else []⟩ : Comm Nat) rfl (fun i => 10 + i) 2
    (by decide)
  exact ⟨m, hm, hcat⟩

/-- C6 fails as stated, in both directions: line 43 is evaluated in binary64, not
in the reals.  With the factor 0.1 (the double `0x1.999999999999ap-4`, a little
above 1/10), 1000 local records and a buffer of 150 records (4800 bytes of
32-byte records), `f*n + 5*sqrt(f*n) > 150` in exact arithmetic, but the product
rounds to 100, the root is 10, the sum 150, and the call does not abort with code
9300.  With the factor `0x1.31c4253827f15p-2`, 1000 local records and a buffer of
385 records, `f*n + 5*sqrt(f*n) > 385` is false in exact arithmetic, but the
computed sum is `385 + 2^-44` and the call aborts with code 9300. -/
theorem local_check_rounds_at_boundary :
    0 ≤ double_0_1 ∧ 0 ≤ double_0_2986 ∧ 0 ≤ snapshot1000.np_local ∧
    nbufOf 32 4800 = 150 ∧
    (double_0_1 : ℝ) * (snapshot1000.np_local : ℝ)
        + 5 * Real.sqrt ((double_0_1 : ℝ) * (snapshot1000.np_local : ℝ))
      > (nbufOf 32 4800 : ℝ) ∧
    write_random_sabsample 32 double_0_1 demoDraws demoComm "subsample.b" snapshot1000
        (fun _ => 0) 4800 ≠ Except.error (Abort.msg_abort 9300) ∧
    nbufOf 32 12320 = 385 ∧
    ¬ ((double_0_2986 : ℝ) * (snapshot1000.np_local : ℝ)
        + 5 * Real.sqrt ((double_0_2986 : ℝ) * (snapshot1000.np_local : ℝ))
      > (nbufOf 32 12320 : ℝ)) ∧
    write_random_sabsample 32 double_0_2986 demoDraws demoComm "subsample.b" snapshot1000
        (fun _ => 0) 12320 = Except.error (Abort.msg_abort 9300) := by
  have h150 : nbufOf 32 4800 = 150 := by decide
  have h385 : nbufOf 32 12320 = 385 := by decide
  have hreal1 : localCheckFails double_0_1 1000 150 := by
    rw [localCheckFails_iff_test]
    norm_num [localCheckTest, double_0_1]
  have hreal2 : ¬ localCheckFails double_0_2986 1000 385 := by
    rw [localCheckFails_iff_test]
    norm_num [localCheckTest, double_0_2986]
  refine ⟨by norm_num [double_0_1], by norm_num [double_0_2986], by decide, h150, ?_, ?_,
    h385, ?_, ?_⟩
  · rw [h150]
    exact hreal1.2
  · rw [Ne, abort_9300_iff, h150]
    exact tenth_check_passes
  · rw [h385]
    intro h
    exact hreal2 ⟨mul_nonneg (by norm_num [double_0_2986]) (by norm_num [snapshot1000]), h⟩
  · rw [abort_9300_iff, h385]
    exact factor_0_2986_check_fails

/-- C6, amended.  Decision of the local capacity test as the program computes it.
For a factor `f ≥ 0` and a local count `n ≥ 0`, `write_random_sabsample` aborts
with code 9300 if and only if the binary64 value of `f*n + 5*sqrt(f*n)`, each of
the four operations rounded to nearest, exceeds `nbuf`.  This agrees with the
comparison in exact arithmetic outside one unit of the boundary: the call aborts
whenever `f*n + 5*sqrt(f*n) ≥ nbuf + 1` and does not whenever
`f*n + 5*sqrt(f*n) ≤ nbuf - 1`.  Where the operations are exact, as for
`f*n = k^2` with `k^2 + 5k < 2^53`, it aborts if and only if
`f*n + 5*sqrt(f*n) > nbuf`, and so does not at the boundary
`f*n + 5*sqrt(f*n) = nbuf`. -/
theorem local_check_decision_binary64 {P M : Type} (r : Nat) (f : ℚ) (u : Nat → ℚ)
    (comm : Comm P) (fn : String) (snapshot : Snapshot P M) (mem : Nat → P) (mem_size : Nat)
    (hf : 0 ≤ f) (hn : 0 ≤ snapshot.np_local) :
    (write_random_sabsample r f u comm fn snapshot mem mem_size
        = Except.error (Abort.msg_abort 9300)
      ↔ gt64 (add64 (mul64 (F64.fin f) (ofInt snapshot.np_local))
            (mul64 (ofInt 5) (sqrt64 (mul64 (F64.fin f) (ofInt snapshot.np_local)))))
          (ofInt (nbufOf r mem_size)) = true) ∧
    ((nbufOf r mem_size : ℝ) + 1 ≤ (f : ℝ) * (snapshot.np_local : ℝ)
          + 5 * Real.sqrt ((f : ℝ) * (snapshot.np_local : ℝ)) →
      write_random_sabsample r f u comm fn snapshot mem mem_size
        = Except.error (Abort.msg_abort 9300)) ∧
    ((f : ℝ) * (snapshot.np_local : ℝ)
          + 5 * Real.sqrt ((f : ℝ) * (snapshot.np_local : ℝ)) ≤ (nbufOf r mem_size : ℝ) - 1 →
      write_random_sabsample r f u comm fn snapshot mem mem_size
        ≠ Except.error (Abort.msg_abort 9300)) ∧
    (∀ k : ℕ, f * (snapshot.np_local : ℚ) = (k : ℚ) ^ 2 → k ^ 2 + 5 * k < 2 ^ 53 →
      (write_random_sabsample r f u comm fn snapshot mem mem_size
          = Except.error (Abort.msg_abort 9300)
        ↔ (f : ℝ) * (snapshot.np_local : ℝ)
            + 5 * Real.sqrt ((f : ℝ) * (snapshot.np_local : ℝ)) > (nbufOf r mem_size : ℝ)) ∧
      ((f : ℝ) * (snapshot.np_local : ℝ)
            + 5 * Real.sqrt ((f : ℝ) * (snapshot.np_local : ℝ)) = (nbufOf r mem_size : ℝ) →
        write_random_sabsample r f u comm fn snapshot mem mem_size
          ≠ Except.error (Abort.msg_abort 9300))) := by
  have hx : 0 ≤ f * (snapshot.np_local : ℚ) := mul_nonneg hf (by exact_mod_cast hn)
  have hN : nbufOf r mem_size ≤ 2 ^ 31 := (nbufOf_lt r mem_size).le
  have habort := abort_9300_iff r f u comm fn snapshot mem mem_size
  refine ⟨habort, ?_, ?_, ?_⟩
  · intro h
    exact habort.2 (localCheckFails64_of_exact_ge f _ _ hx hN h)
  · intro h hab
    exact not_localCheckFails64_of_exact_le f _ _ hx hN h (habort.1 hab)
  · intro k hk hb
    have hX : (f : ℝ) * (snapshot.np_local : ℝ) = (k : ℝ) ^ 2 := by
      have := congrArg (fun q : ℚ => (q : ℝ)) hk
      push_cast at this
      exact this
    have hroot : Real.sqrt ((f : ℝ) * (snapshot.np_local : ℝ)) = (k : ℝ) := by
      rw [hX]
      exact Real.sqrt_sq (Nat.cast_nonneg k)
    have hiff : write_random_sabsample r f u comm fn snapshot mem mem_size
          = Except.error (Abort.msg_abort 9300)
        ↔ (f : ℝ) * (snapshot.np_local : ℝ)
            + 5 * Real.sqrt ((f : ℝ) * (snapshot.np_local : ℝ)) > (nbufOf r mem_size : ℝ) := by
      rw [habort, localCheckFails64_square f _ _ k hk hb, hroot, hX, gt_iff_lt,
        ← Rat.cast_lt (K := ℝ)]
      push_cast
      rfl
    refine ⟨hiff, fun heq hab => ?_⟩
    have := hiff.1 hab
    rw [heq] at this
    exact lt_irrefl _ this

/-- C6 amended, at two products.  With factor 1/4 and 16 local records the
product is `2^2`, every operation is exact and `f*n + 5*sqrt(f*n) = 14`: a
buffer of 13 records is refused with code 9300, one of 14 records is not.  With
the factor 0.1 and 1000 local records the exact value lies between 150 and 151:
a buffer of 149 records is refused with code 9300, one of 152 records is not. -/
theorem local_check_decision_binary64_witness :
    write_random_sabsample 32 (1 / 4) demoDraws demoComm "subsample.b" snapshot16
        (fun _ => 0) 416 = Except.error (Abort.msg_abort 9300) ∧
    write_random_sabsample 32 (1 / 4) demoDraws demoComm "subsample.b" snapshot16
        (fun _ => 0) 448 ≠ Except.error (Abort.msg_abort 9300) ∧
    write_random_sabsample 32 double_0_1 demoDraws demoComm "subsample.b" snapshot1000
        (fun _ => 0) 4768 = Except.error (Abort.msg_abort 9300) ∧
    write_random_sabsample 32 double_0_1 demoDraws demoComm "subsample.b" snapshot1000
        (fun _ => 0) 4864 ≠ Except.error (Abort.msg_abort 9300) := by
  have hsq : (((1 / 4 : ℚ) : ℝ)) * (((16 : Int)) : ℝ) = 2 ^ 2 := by norm_num
  have hsqrt : Real.sqrt ((((1 / 4 : ℚ) : ℝ)) * (((16 : Int)) : ℝ)) = 2 := by
    rw [hsq]
    exact Real.sqrt_sq (by norm_num)
  have h13 : nbufOf 32 416 = 13 := by decide
  have h14 : nbufOf 32 448 = 14 := by decide
  have h149 : nbufOf 32 4768 = 149 := by decide
  have h152 : nbufOf 32 4864 = 152 := by decide
  have hk : (1 / 4 : ℚ) * ((snapshot16.np_local : Int) : ℚ) = ((2 : ℕ) : ℚ) ^ 2 := by
    norm_num [snapshot16]
  have hab : localCheckFails double_0_1 1000 150 := by
    rw [localCheckFails_iff_test]
    norm_num [localCheckTest, double_0_1]
  have hbe : ¬ localCheckFails double_0_1 1000 151 := by
    rw [localCheckFails_iff_test]
    norm_num [localCheckTest, double_0_1]
  have hf : 0 ≤ double_0_1 := by norm_num [double_0_1]
  refine ⟨?_, ?_, ?_, ?_⟩
  · refine ((local_check_decision_binary64 32 (1 / 4) demoDraws demoComm "subsample.b"
      snapshot16 (fun _ => 0) 416 (by norm_num) (by decide)).2.2.2 2 hk (by norm_num)).1.2 ?_
    show (((1 / 4 : ℚ) : ℝ)) * (((16 : Int)) : ℝ)
      + 5 * Real.sqrt ((((1 / 4 : ℚ) : ℝ)) * (((16 : Int)) : ℝ)) > ((nbufOf 32 416 : Int) : ℝ)
    rw [hsqrt, h13]
    norm_num
  · refine ((local_check_decision_binary64 32 (1 / 4) demoDraws demoComm "subsample.b"
      snapshot16 (fun _ => 0) 448 (by norm_num) (by decide)).2.2.2 2 hk (by norm_num)).2 ?_
    show (((1 / 4 : ℚ) : ℝ)) * (((16 : Int)) : ℝ)
      + 5 * Real.sqrt ((((1 / 4 : ℚ) : ℝ)) * (((16 : Int)) : ℝ)) = ((nbufOf 32 448 : Int) : ℝ)
    rw [hsqrt, h14]
    norm_num
  · refine (local_check_decision_binary64 32 double_0_1 demoDraws demoComm "subsample.b"
      snapshot1000 (fun _ => 0) 4768 hf (by decide)).2.1 ?_
    have e : (((149 : Int)) : ℝ) + 1 = (((150 : Int)) : ℝ) := by norm_num
    rw [h149, e]
    exact hab.2.le
  · refine (local_check_decision_binary64 32 double_0_1 demoDraws demoComm "subsample.b"
      snapshot1000 (fun _ => 0) 4864 hf (by decide)).2.2.1 ?_
    have e : (((152 : Int)) : ℝ) - 1 = (((151 : Int)) : ℝ) := by norm_num
    rw [h152, e]
    by_contra hc
    exact hbe ⟨mul_nonneg (by exact_mod_cast hf) (by norm_num), not_le.mp hc⟩

/-- C7.  Snapshot assembly on the coordinator: whenever the call returns on rank
0, the snapshot handed to the writer (with the file name of the call) has `a`,
`boxsize`, `omega_m`, `h` and `seed` of the input snapshot, the counts
`np_local`, `np_total`, `np_average`, `np_allocated` all equal to the
consolidated total `ns`, `nc = 0`, and its particle pointer is `buf1`, the
scratch buffer from record `nsub` on.  The input snapshot is a value the
embedding only reads. -/
theorem assembled_snapshot {P M : Type} (r : Nat) (f : ℚ) (u : Nat → ℚ) (comm : Comm P)
    (fn : String) (snapshot : Snapshot P M) (mem : Nat → P) (mem_size : Nat)
    (h0 : comm.this_node = 0) (o : Outcome P M)
    (hret : write_random_sabsample r f u comm fn snapshot mem mem_size = Except.ok o) :
    ∃ sub, o.written = some (fn, sub) ∧
      sub.a = snapshot.a ∧ sub.boxsize = snapshot.boxsize ∧ sub.omega_m = snapshot.omega_m ∧
      sub.h = snapshot.h ∧ sub.seed = snapshot.seed ∧
      sub.np_local = (gatheredCounts r comm (localFilter f u snapshot mem).out
        (localFilter f u snapshot mem).nsub).ns ∧
      sub.np_total = sub.np_local ∧ sub.np_average = sub.np_local ∧
      sub.np_allocated = sub.np_local ∧ sub.nc = 0 ∧
      sub.p = fun j => o.mem ((localFilter f u snapshot mem).nsub + j) := by
  obtain ⟨-, -, m, -, ho⟩ := (ok_on_coordinator r f u comm fn snapshot mem mem_size h0 o).1 hret
  subst ho
  exact ⟨_, rfl, rfl, rfl, rfl, rfl, rfl, rfl, rfl, rfl, rfl, rfl, rfl⟩

/-- C7, on the small job: the snapshot written has the header of the input, four
records and `nc = 0`, and its records are `[10, 12, 7, 8]`. -/
theorem assembled_snapshot_witness :
    ∃ o sub, write_random_sabsample 32 (1 / 2) demoDraws demoComm "subsample.b" demoSnapshot
          (fun _ => 0) 3200 = Except.ok o ∧
      o.written = some ("subsample.b", sub) ∧ sub.a = 1 ∧ sub.boxsize = 100 ∧ sub.seed = 42 ∧
      sub.np_local = 4 ∧ sub.np_total = 4 ∧ sub.np_average = 4 ∧ sub.np_allocated = 4 ∧
      sub.nc = 0 ∧ readArr sub.p 0 4 = [10, 12, 7, 8] := by
  obtain ⟨o, ho, -, hcat⟩ := demo_run
  obtain ⟨sub, hw, ha, hb, -, -, hs, hl, ht, hv, hal, hnc, hp⟩ :=
    assembled_snapshot 32 (1 / 2) demoDraws demoComm "subsample.b" demoSnapshot (fun _ => 0)
      3200 rfl o ho
  rw [demo_ns] at hl
  rw [demo_nsub] at hp
  refine ⟨o, sub, ho, hw, ha, hb, hs, hl, ht.trans hl, hv.trans hl, hal.trans hl, hnc, ?_⟩
  rw [hp, ← hcat]
  simp [readArr]

/-- C4 fails as stated: with factor 1/4, 16 local records and a scratch buffer of
15 records (480 bytes of 32-byte records) the local test passes, since
`4 + 5*sqrt 4 = 14 ≤ 15`, and the call does not abort with code 9300; when all 16
draws are 0 the loop keeps all 16 records, so `nsub = 16 > nbuf` and record 15,
outside the buffer, has been written. -/
theorem local_check_passes_filter_overflows :
    nbufOf 32 480 = 15 ∧
    ¬ localCheckFails (1 / 4) snapshot16.np_local (nbufOf 32 480) ∧
    write_random_sabsample 32 (1 / 4) (fun _ => 0) demoComm "subsample.b" snapshot16
        (fun _ => 0) 480 ≠ Except.error (Abort.msg_abort 9300) ∧
    (localFilter (1 / 4) (fun _ => 0) snapshot16 fun _ => 0).nsub = 16 ∧
    ¬ ((localFilter (1 / 4) (fun _ => 0) snapshot16 fun _ => 0).nsub : Int) ≤ nbufOf 32 480 ∧
    readArr (localFilter (1 / 4) (fun _ => 0) snapshot16 fun _ => 0).out 15 1 = [25] := by
  have hnbuf : nbufOf 32 480 = 15 := by decide
  have hloc : ¬ localCheckFails (1 / 4) snapshot16.np_local (nbufOf 32 480) := by
    rw [localCheckFails_iff_test, hnbuf]
    norm_num [localCheckTest, snapshot16, demoSnapshot]
  have h16n : (16 : Int).toNat = 16 := by decide
  have hnsub : (localFilter (1 / 4) (fun _ => 0) snapshot16 fun _ => 0).nsub = 16 := by
    rw [localFilter_nsub]
    norm_num [snapshot16, demoSnapshot, h16n]
  have hout := localFilter_out (1 / 4) (fun _ => 0) snapshot16 fun _ => 0
  rw [hnsub] at hout
  refine ⟨hnbuf, hloc, ?_, hnsub, ?_, ?_⟩
  · rw [Ne, abort_9300_iff, hnbuf]
    apply not_localCheckFails64_of_test
    · norm_num [snapshot16, demoSnapshot]
    · norm_num
    · norm_num [localCheckTest, snapshot16, demoSnapshot]
  · rw [hnsub, hnbuf]
    decide
  · have h16 : readArr (localFilter (1 / 4) (fun _ => 0) snapshot16 fun _ => 0).out 0 (15 + 1)
        = ((List.range 16).map fun i => 10 + i) := by
      rw [hout]
      norm_num [snapshot16, demoSnapshot, h16n]
    rw [readArr_add] at h16
    have hlen := readArr_length
      (localFilter (1 / 4) (fun _ => 0) snapshot16 fun _ => 0).out 0 15
    have := List.append_inj_right h16 (by rw [hlen]; decide : _ = ((List.range 15).map fun i => 10 + i).length)
    simpa using this

/-- C4, amended.  For every factor, count, capacity and stream of draws the
filter loop ends with `nsub ≤ np` (with `nsub = 0` for `np ≤ 0`); hence every
write `out[j]`, `j < nsub`, lies inside a buffer of `nbuf` records whenever
`np ≤ nbuf`, and the local test guarantees that when the factor is at least 1:
the test in exact arithmetic does, and so does the test as the program computes
it, for a capacity in the range of `int`. -/
theorem filter_writes_within_np {P : Type} (f : ℚ) (p : Nat → P) (np nbuf : Int)
    (u : Nat → ℚ) (mem : Nat → P) :
    (filterLoop f p np ⟨u, mem, 0⟩).nsub ≤ np.toNat ∧
    (np ≤ nbuf → ∀ j, j < (filterLoop f p np ⟨u, mem, 0⟩).nsub → (j : Int) < nbuf) ∧
    (1 ≤ f → ¬ localCheckFails f np nbuf →
      ∀ j, j < (filterLoop f p np ⟨u, mem, 0⟩).nsub → (j : Int) < nbuf) ∧
    (1 ≤ f → nbuf < 2 ^ 31 → ¬ localCheckFails64 f np nbuf →
      ∀ j, j < (filterLoop f p np ⟨u, mem, 0⟩).nsub → (j : Int) < nbuf) := by
  have hle : (filterLoop f p np ⟨u, mem, 0⟩).nsub ≤ np.toNat := by
    rw [filterLoop_toNat, (filterLoop_invariant f p u mem np.toNat).2.1]
    exact (count_filter_range _ _).1
  have hsafe : np ≤ nbuf →
      ∀ j, j < (filterLoop f p np ⟨u, mem, 0⟩).nsub → (j : Int) < nbuf := by
    intro h j hj
    have : j < np.toNat := lt_of_lt_of_le hj hle
    omega
  refine ⟨hle, hsafe, ?_, ?_⟩
  · intro hf hloc j hj
    have hjn : j < np.toNat := lt_of_lt_of_le hj hle
    have hnp : 0 < np := by omega
    apply hsafe _ j hj
    unfold localCheckFails at hloc
    have hfr : (1 : ℝ) ≤ (f : ℝ) := by exact_mod_cast hf
    have hnr : (0 : ℝ) < (np : ℝ) := by exact_mod_cast hnp
    have hprod : (np : ℝ) ≤ (f : ℝ) * (np : ℝ) := by nlinarith
    have hsq := Real.sqrt_nonneg ((f : ℝ) * (np : ℝ))
    have hle' : (f : ℝ) * (np : ℝ) + 5 * Real.sqrt ((f : ℝ) * (np : ℝ)) ≤ (nbuf : ℝ) := by
      by_contra hgt
      exact hloc ⟨by linarith, not_le.mp hgt⟩
    have : (np : ℝ) ≤ (nbuf : ℝ) := by linarith
    exact_mod_cast this
  · intro hf hN hloc j hj
    have hjn : j < np.toNat := lt_of_lt_of_le hj hle
    have hnp : 0 < np := by omega
    apply hsafe _ j hj
    by_contra hgt
    apply hloc
    have hfq : (0 : ℚ) ≤ f := by linarith
    have hnq : (0 : ℚ) ≤ (np : ℚ) := by exact_mod_cast hnp.le
    have hfr : (1 : ℝ) ≤ (f : ℝ) := by exact_mod_cast hf
    have hnr : (0 : ℝ) < (np : ℝ) := by exact_mod_cast hnp
    have hprod : (np : ℝ) ≤ (f : ℝ) * (np : ℝ) := by nlinarith
    have hsq := Real.sqrt_nonneg ((f : ℝ) * (np : ℝ))
    have hstep : nbuf + 1 ≤ np := by omega
    have hstepr : (nbuf : ℝ) + 1 ≤ (np : ℝ) := by exact_mod_cast hstep
    exact localCheckFails64_of_exact_ge f np nbuf (mul_nonneg hfq hnq) hN.le (by linarith)

/-- C4 amended, with factor 3/2, four local records, the draws of the small job
and a buffer of 100 records: the test passes, all four records are kept, and the
last write, at index 3, is inside the buffer. -/
theorem filter_writes_within_np_witness :
    ¬ localCheckFails (3 / 2) 4 100 ∧
    (filterLoop (3 / 2 : ℚ) (fun i => 10 + i) 4 ⟨demoDraws, fun _ => 0, 0⟩).nsub = 4 ∧
    ((3 : Nat) : Int) < 100 := by
  have hloc : ¬ localCheckFails (3 / 2) 4 100 := by
    rw [localCheckFails_iff_test]
    norm_num [localCheckTest]
  have hn : (filterLoop (3 / 2 : ℚ) (fun i => 10 + i) 4 ⟨demoDraws, fun _ => 0, 0⟩).nsub = 4 := by
    rw [show (4 : Int) = ((4 : Nat) : Int) from rfl,
      (filterLoop_invariant (3 / 2 : ℚ) (fun i => 10 + i) demoDraws (fun _ => 0) 4).2.1]
    norm_num [demoDraws, List.range_succ, List.filter]
  exact ⟨hloc, hn,
    (filter_writes_within_np (3 / 2) (fun i => 10 + i) 4 100 demoDraws fun _ => 0).2.2.1
      (by norm_num) hloc 3 (by rw [hn]; decide)⟩

/-- C9 fails as stated: `subsample_init` with the factor 2, outside `(0,1]`,
reports nothing, stores 2 as `SubsampleFactor` and seeds the generator; the
filter then runs with the factor 2 and keeps all 4 records of the small job.  The
factor -1 is stored in the same way. -/
theorem subsample_init_accepts_factor_two :
    ¬ ((0 : ℚ) < 2 ∧ (2 : ℚ) ≤ 1) ∧
    subsample_init Globals.initial 2 42 0 ≠ Globals.initial ∧
    (subsample_init Globals.initial 2 42 0).SubsampleFactor = 2 ∧
    (subsample_init Globals.initial 2 42 0).Random_generator = some 84 ∧
    (subsample_init Globals.initial (-1) 42 0).SubsampleFactor = -1 ∧
    (localFilter (subsample_init Globals.initial 2 42 0).SubsampleFactor demoDraws
      demoSnapshot fun _ => 0).nsub = 4 := by
  refine ⟨by norm_num, ?_, rfl, by decide, rfl, ?_⟩
  · intro h
    have := congrArg Globals.SubsampleFactor h
    simp [subsample_init, Globals.initial] at this
  · rw [localFilter_nsub]
    norm_num [subsample_init, demoSnapshot, demoDraws, List.range_succ, List.filter]

/-- C9, amended.  `subsample_init` validates nothing: for every factor, in
`(0,1]` or not, it stores the factor as `SubsampleFactor` and seeds the generator
with the value of `rng_seed`.  With draws in `[0,1)` the filter loop then keeps no
record when the stored factor is at most 0 and every record when it is at least 1. -/
theorem subsample_init_stores_every_factor (g : Globals) (f : ℚ) (seed : Nat) (node : Int) :
    (subsample_init g f seed node).SubsampleFactor = f ∧
    (subsample_init g f seed node).Random_generator = some (rng_seed seed node) ∧
    ∀ (P : Type) (p : Nat → P) (np : Int) (mem : Nat → P) (u : Nat → ℚ),
      (∀ i, 0 ≤ u i ∧ u i < 1) →
      ((subsample_init g f seed node).SubsampleFactor ≤ 0 →
        (filterLoop (subsample_init g f seed node).SubsampleFactor p np ⟨u, mem, 0⟩).nsub = 0) ∧
      (1 ≤ (subsample_init g f seed node).SubsampleFactor →
        (filterLoop (subsample_init g f seed node).SubsampleFactor p np ⟨u, mem, 0⟩).nsub
          = np.toNat) := by
  refine ⟨rfl, rfl, ?_⟩
  intro P p np mem u hu
  show (f ≤ 0 → (filterLoop f p np ⟨u, mem, 0⟩).nsub = 0) ∧
    (1 ≤ f → (filterLoop f p np ⟨u, mem, 0⟩).nsub = np.toNat)
  rw [filterLoop_toNat, (filterLoop_invariant f p u mem np.toNat).2.1]
  constructor
  · intro hf
    apply (count_filter_range _ _).2.1
    intro i _
    have := (hu i).1
    simp only [decide_eq_false_iff_not, not_lt]
    linarith
  · intro hf
    apply (count_filter_range _ _).2.2
    intro i _
    have := (hu i).2
    simp only [decide_eq_true_eq]
    linarith

/-- C8.  Unbiased sampling: for a factor `f` in `[0,1]` and a local count `n`,
when the `n` draws the filter consumes are random variables, each uniform on
`[0,1)` and any two of them independent (as they are when all `n` are
independent), the sample size `nsub` the filter loop produces has expectation
`f * n` and variance `f * (1 - f) * n`. -/
theorem filter_count_mean_variance {Ω P : Type} [MeasurableSpace Ω] (μ : Measure Ω)
    [IsProbabilityMeasure μ] (f : ℝ) (hf0 : 0 ≤ f) (hf1 : f ≤ 1) (n : Nat) (p : Nat → P)
    (mem : Nat → P) (U : Nat → Ω → ℝ)
    (hmeas : ∀ i, i < n → Measurable (U i))
    (hunif : ∀ i, i < n → μ.map (U i) = volume.restrict (Set.Ico 0 1))
    (hindep : ∀ i j, i < n → j < n → i ≠ j → IndepFun (U i) (U j) μ) :
    ∫ ω, ((filterLoop f p (n : Int) ⟨fun i => U i ω, mem, 0⟩).nsub : ℝ) ∂μ = f * n ∧
    variance (fun ω => ((filterLoop f p (n : Int) ⟨fun i => U i ω, mem, 0⟩).nsub : ℝ)) μ
      = f * (1 - f) * n := by
  have hmom := fun i (hi : i < n) =>
    indicator_moments μ f hf0 hf1 (U i) (hmeas i hi) (hunif i hi)
  have hg : Measurable ((Set.Iio f).indicator fun _ : ℝ => (1 : ℝ)) :=
    measurable_const.indicator measurableSet_Iio
  constructor
  · have h := congrArg (fun F => ∫ ω, F ω ∂μ) (nsub_eq_sum_indicators f p mem U n)
    simp only [Finset.sum_apply] at h
    rw [h, integral_finset_sum]
    · rw [Finset.sum_congr rfl fun i hi => (hmom i (Finset.mem_range.mp hi)).2.1]
      simp [mul_comm]
    · intro i hi
      exact (hmom i (Finset.mem_range.mp hi)).1.integrable (by norm_num)
  · rw [nsub_eq_sum_indicators, IndepFun.variance_sum]
    · rw [Finset.sum_congr rfl fun i hi => (hmom i (Finset.mem_range.mp hi)).2.2]
      simp [mul_comm]
    · intro i hi
      exact (hmom i (Finset.mem_range.mp hi)).1
    · intro i hi j hj hij
      have h := (hindep i j (Finset.mem_range.mp hi) (Finset.mem_range.mp hj) hij).comp hg hg
      exact h


/-- C8, for two draws that are the coordinates of a point uniform on the unit
square and the factor 1/2: the sample size has mean 1 and variance 1/2. -/
theorem filter_count_mean_variance_witness :
    ∫ ω : ℝ × ℝ, ((filterLoop (1 / 2 : ℝ) (fun i => 10 + i) ((2 : Nat) : Int)
        ⟨fun i => if i = 0 then ω.1 else ω.2, fun _ => 0, 0⟩).nsub : ℝ)
      ∂(((volume : Measure ℝ).restrict (Set.Ico 0 1)).prod
        ((volume : Measure ℝ).restrict (Set.Ico 0 1))) = 1 ∧
    variance (fun ω : ℝ × ℝ => ((filterLoop (1 / 2 : ℝ) (fun i => 10 + i) ((2 : Nat) : Int)
        ⟨fun i => if i = 0 then ω.1 else ω.2, fun _ => 0, 0⟩).nsub : ℝ))
      (((volume : Measure ℝ).restrict (Set.Ico 0 1)).prod
        ((volume : Measure ℝ).restrict (Set.Ico 0 1))) = 1 / 2 := by
  haveI := unitInterval_isProbability
  have hfst : Measure.map Prod.fst (((volume : Measure ℝ).restrict (Set.Ico 0 1)).prod
      ((volume : Measure ℝ).restrict (Set.Ico 0 1)))
      = (volume : Measure ℝ).restrict (Set.Ico 0 1) := by
    rw [Measure.map_fst_prod, measure_univ, one_smul]
  have hsnd : Measure.map Prod.snd (((volume : Measure ℝ).restrict (Set.Ico 0 1)).prod
      ((volume : Measure ℝ).restrict (Set.Ico 0 1)))
      = (volume : Measure ℝ).restrict (Set.Ico 0 1) := by
    rw [Measure.map_snd_prod, measure_univ, one_smul]
  have hind : IndepFun (Prod.fst : ℝ × ℝ → ℝ) (Prod.snd : ℝ × ℝ → ℝ)
      (((volume : Measure ℝ).restrict (Set.Ico 0 1)).prod
        ((volume : Measure ℝ).restrict (Set.Ico 0 1))) := by
    rw [indepFun_iff_map_prod_eq_prod_map_map measurable_fst.aemeasurable
      measurable_snd.aemeasurable, hfst, hsnd]
    exact Measure.map_id
  have h := filter_count_mean_variance
    (((volume : Measure ℝ).restrict (Set.Ico 0 1)).prod
      ((volume : Measure ℝ).restrict (Set.Ico 0 1)))
    (1 / 2) (by norm_num) (by norm_num) 2 (fun i => 10 + i) (fun _ => 0)
    (fun i (ω : ℝ × ℝ) => if i = 0 then ω.1 else ω.2)
    (by
      intro i _
      by_cases hi : i = 0
      · simp only [hi, if_true]
        exact measurable_fst
      · simp only [hi, if_false]
        exact measurable_snd)
    (by
      intro i _
      by_cases hi : i = 0
      · simp only [hi, if_true]
        exact hfst
      · simp only [hi, if_false]
        exact hsnd)
    (by
      intro i j hi hj hij
      have hcases : (i = 0 ∧ j = 1) ∨ (i = 1 ∧ j = 0) := by omega
      rcases hcases with ⟨rfl, rfl⟩ | ⟨rfl, rfl⟩
      · exact hind
      · exact hind.symm)
  refine ⟨h.1.trans (by norm_num), h.2.trans (by norm_num)⟩

/-! ## The whole call -/

/-- On the coordinator, when neither capacity test fails and the total byte
length of the samples fits an `int`, `write_random_sabsample` returns; the
snapshot it hands to the writer counts `Σ nsub_i` records, and these are the
coordinator's records whose draw was below the factor, in their order, followed
by the samples of ranks `1, 2, …` in rank order. -/
theorem coordinator_writes_consolidated_set {P M : Type} (r : Nat) (hr : 0 < r) (f : ℚ)
    (u : Nat → ℚ) (comm : Comm P) (fn : String) (snapshot : Snapshot P M) (mem : Nat → P)
    (mem_size : Nat) (h0 : comm.this_node = 0)
    (hloc : ¬ localCheckFails64 f snapshot.np_local (nbufOf r mem_size))
    (hglob : ¬ globalCheckFails (nbufOf r mem_size) (localFilter f u snapshot mem).nsub
      (gatheredCounts r comm (localFilter f u snapshot mem).out
        (localFilter f u snapshot mem).nsub).ns)
    (hfit : (r : Int) * ((∑ i ∈ Finset.range comm.nnode,
        (samples comm (localFilter f u snapshot mem).out
          (localFilter f u snapshot mem).nsub i).length : Nat) : Int) < 2 ^ 31) :
    ∃ o sub, write_random_sabsample r f u comm fn snapshot mem mem_size = Except.ok o ∧
      o.written = some (fn, sub) ∧
      sub.np_local = ((∑ i ∈ Finset.range comm.nnode,
        (samples comm (localFilter f u snapshot mem).out
          (localFilter f u snapshot mem).nsub i).length : Nat) : Int) ∧
      readArr sub.p 0 (∑ i ∈ Finset.range comm.nnode,
          (samples comm (localFilter f u snapshot mem).out
            (localFilter f u snapshot mem).nsub i).length)
        = ((List.range comm.nnode).map
            (samples comm (localFilter f u snapshot mem).out
              (localFilter f u snapshot mem).nsub)).flatten ∧
      samples comm (localFilter f u snapshot mem).out (localFilter f u snapshot mem).nsub 0
        = ((List.range snapshot.np_local.toNat).filter fun i => decide (u i < f)).map
            snapshot.p := by
  obtain ⟨o, ho, hw, hcat⟩ := coordinator_run r hr f u comm fn snapshot mem mem_size h0 hloc
    hglob hfit
  refine ⟨o, _, ho, hw, rfl, ?_, ?_⟩
  · rw [← hcat]
    simp [assemble, readArr]
  · rw [← localFilter_out f u snapshot mem]
    simp [samples, h0]

/-- The small job: the writer receives the four records `[10, 12, 7, 8]`. -/
theorem coordinator_writes_consolidated_set_witness :
    ∃ o sub, write_random_sabsample 32 (1 / 2) demoDraws demoComm "subsample.b" demoSnapshot
          (fun _ => 0) 3200 = Except.ok o ∧
      o.written = some ("subsample.b", sub) ∧ sub.np_local = 4 ∧
      readArr sub.p 0 4 = [10, 12, 7, 8] := by
  obtain ⟨o, sub, ho, hw, hn, hcat, -⟩ := coordinator_writes_consolidated_set 32 (by decide)
    (1 / 2) demoDraws demoComm "subsample.b" demoSnapshot (fun _ => 0) 3200 rfl demo_local_ok
    demo_global_ok demo_fit
  rw [demo_total] at hn hcat
  rw [demo_nsub, funext demo_samples] at hcat
  exact ⟨o, sub, ho, hw, hn, hcat.trans (by decide)⟩

/-- On a rank other than 0 a call that passes the local capacity test returns
with its sample at the head of the scratch buffer and writes no file. -/
theorem other_ranks_write_nothing {P M : Type} (r : Nat) (f : ℚ) (u : Nat → ℚ)
    (comm : Comm P) (fn : String) (snapshot : Snapshot P M) (mem : Nat → P) (mem_size : Nat)
    (hrank : comm.this_node ≠ 0)
    (hloc : ¬ localCheckFails64 f snapshot.np_local (nbufOf r mem_size)) :
    write_random_sabsample r f u comm fn snapshot mem mem_size
      = Except.ok { Random_generator := (localFilter f u snapshot mem).Random_generator
                    mem := (localFilter f u snapshot mem).out
                    written := none } ∧
    readArr (localFilter f u snapshot mem).out 0 (localFilter f u snapshot mem).nsub
      = ((List.range snapshot.np_local.toNat).filter fun i => decide (u i < f)).map
          snapshot.p := by
  refine ⟨?_, localFilter_out f u snapshot mem⟩
  unfold write_random_sabsample
  simp [hloc, hrank]

/-- Rank 1 of a job with the data of the small job. -/
theorem other_ranks_write_nothing_witness :
    ∃ o, write_random_sabsample 32 (1 / 2) demoDraws ⟨1, 2, fun _ => []⟩ "subsample.b"
          demoSnapshot (fun _ => 0) 3200 = Except.ok o ∧
      o.written = none ∧ readArr o.mem 0 2 = [10, 12] :=
  ⟨_, (other_ranks_write_nothing 32 (1 / 2) demoDraws ⟨1, 2, fun _ => []⟩ "subsample.b"
      demoSnapshot (fun _ => 0) 3200 (by decide) demo_local_ok).1, rfl, demo_out⟩

end Subsample
